import Mathlib

/-!
# Verification of the apec crawler/store against its specification

This development embeds the core data structures of the `apec` repository
(a job-offer crawler with an embedded chunked key/value store, a durable
index queue, a spatial index, a cached geocoder and a small query parser)
into Lean and proves or refutes the specified properties.

Modelling conventions:
* Go byte slices are modelled as `List Nat` (one `Nat` per byte); Go strings
  are modelled by their character sequence, converted to bytes through
  `Char.toNat` (exact for the ASCII identifiers the program manipulates).
* Machine integers are modelled as `Nat`/`Int`; where Go conversions wrap
  (e.g. `uint64(int64)`), the wrap is made explicit with `% 2 ^ 64`.
* The underlying ordered key/value library (`cznic/kv`, `boltdb`) is an
  external dependency; it is modelled as a finite association list from
  byte keys to byte values, plus a separate counter map for its atomic
  `Inc` counters (the program never reads a counter key as data or vice
  versa, which the development proves where it matters).
* Transactions: the claims under study are single-threaded state
  transformations; `db.Update`/`db.View` are modelled as direct state
  passing, with a failed transaction returning the unchanged state
  (rollback).
-/

namespace Apec

/-! ## Go `encoding/binary` unsigned varints

`binary.PutUvarint` writes the base-128 little-endian varint of `n`:
low 7 bits first, a continuation bit (0x80) on every byte but the last.
`binary.Uvarint` parses it back, ignoring trailing bytes.
-/

/-- Byte sequence produced by Go's `binary.PutUvarint`. -/
def putUvarintBytes (n : Nat) : List Nat :=
  if n < 128 then [n] else (n % 128 + 128) :: putUvarintBytes (n / 128)
decreasing_by exact Nat.div_lt_self (by omega) (by omega)

/-- Parser for the varints produced by `putUvarintBytes` (Go's
`binary.Uvarint` restricted to well-formed input; trailing bytes are
ignored, an empty buffer decodes to 0). -/
def parseUvarint : List Nat → Nat
  | [] => 0
  | b :: rest => if b < 128 then b else (b - 128) + 128 * parseUvarint rest

theorem parseUvarint_putUvarintBytes (n : Nat) (rest : List Nat) :
    parseUvarint (putUvarintBytes n ++ rest) = n := by
  induction n using Nat.strong_induction_on generalizing rest with
  | _ n ih =>
    rw [putUvarintBytes]
    by_cases h : n < 128
    · simp [h, parseUvarint]
    · have hd : n / 128 < n := Nat.div_lt_self (by omega) (by omega)
      simp only [h, if_false, List.cons_append, parseUvarint]
      have : ¬ (n % 128 + 128 < 128) := by omega
      rw [if_neg this, ih (n / 128) hd rest]
      omega

theorem putUvarintBytes_injective : Function.Injective putUvarintBytes := by
  intro a b h
  have ha := parseUvarint_putUvarintBytes a []
  have hb := parseUvarint_putUvarintBytes b []
  rw [← ha, ← hb, h]

/-- `binary.MaxVarintLen32`-sized key suffix as produced by
`KVDBKeys.Next`: the varint of the chunk index written into a 5-byte
zero-initialised buffer (the buffer is reused and varint length only ever
grows, so unwritten tail bytes are zero). -/
def chunkSuffix (i : Nat) : List Nat :=
  putUvarintBytes i ++ List.replicate (5 - (putUvarintBytes i).length) 0

theorem parseUvarint_chunkSuffix (i : Nat) : parseUvarint (chunkSuffix i) = i := by
  unfold chunkSuffix
  have : List.replicate (5 - (putUvarintBytes i).length) 0 =
      List.replicate (5 - (putUvarintBytes i).length) 0 ++ [] := by simp
  rw [parseUvarint_putUvarintBytes]

theorem chunkSuffix_injective : Function.Injective chunkSuffix := by
  intro a b h
  have ha := parseUvarint_chunkSuffix a
  have hb := parseUvarint_chunkSuffix b
  rw [← ha, ← hb, h]

/-! ## Bytes and strings -/

/-- Go `[]byte(string)`: the program's identifiers are ASCII, so one
character maps to one byte. -/
def bytesOfString (s : String) : List Nat := s.toList.map Char.toNat

/-- Go `string([]byte)` on bytes that came from `bytesOfString`. -/
def stringOfBytes (l : List Nat) : String := String.mk (l.map Char.ofNat)

theorem stringOfBytes_bytesOfString (s : String) :
    stringOfBytes (bytesOfString s) = s := by
  unfold stringOfBytes bytesOfString
  rw [List.map_map]
  have : (Char.ofNat ∘ Char.toNat) = id := by
    funext c
    simp [Function.comp, Char.ofNat_toNat]
  rw [this, List.map_id]
  rfl

/-! ## Finite byte-keyed map

Model of the external ordered key/value libraries (`cznic/kv` data records,
`boltdb` buckets): a finite association list from byte keys to byte values.
The earliest entry for a key wins; `kvSet` erases before inserting so maps
built by the operations have at most one entry per key.
-/

/-- Keys and values are byte lists. -/
abbrev KVMap := List (List Nat × List Nat)

def kvGet : KVMap → List Nat → Option (List Nat)
  | [], _ => none
  | e :: db, k => if e.1 = k then some e.2 else kvGet db k

def kvErase : KVMap → List Nat → KVMap
  | [], _ => []
  | e :: db, k => if e.1 = k then kvErase db k else e :: kvErase db k

def kvSet (db : KVMap) (k v : List Nat) : KVMap :=
  (k, v) :: kvErase db k

@[simp] theorem kvGet_nil (k : List Nat) : kvGet [] k = none := rfl

theorem kvGet_kvErase (db : KVMap) (k k' : List Nat) :
    kvGet (kvErase db k) k' = if k' = k then none else kvGet db k' := by
  induction db with
  | nil => by_cases h : k' = k <;> simp [kvErase, kvGet, h]
  | cons e db ih =>
    by_cases h : k' = k
    · subst h
      by_cases he : e.1 = k' <;> simp [kvErase, kvGet, he, ih]
    · by_cases he : e.1 = k
      · have hek : ¬ e.1 = k' := fun hh => h ((hh.symm.trans he))
        have h' : ¬ k = k' := fun hh => h hh.symm
        simp [kvErase, kvGet, he, hek, ih, h, h']
      · by_cases hek : e.1 = k' <;> simp [kvErase, kvGet, he, hek, ih, h]

theorem kvGet_kvSet (db : KVMap) (k v k' : List Nat) :
    kvGet (kvSet db k v) k' = if k' = k then some v else kvGet db k' := by
  by_cases h : k' = k
  · simp [kvSet, kvGet, h]
  · have h' : ¬ k = k' := fun hh => h hh.symm
    simp [kvSet, kvGet, h, h', kvGet_kvErase]

@[simp] theorem kvGet_kvSet_self (db : KVMap) (k v : List Nat) :
    kvGet (kvSet db k v) k = some v := by simp [kvGet_kvSet]

theorem kvGet_kvSet_ne (db : KVMap) (k v k' : List Nat) (h : k' ≠ k) :
    kvGet (kvSet db k v) k' = kvGet db k' := by simp [kvGet_kvSet, h]

@[simp] theorem kvGet_kvErase_self (db : KVMap) (k : List Nat) :
    kvGet (kvErase db k) k = none := by simp [kvGet_kvErase]

theorem kvGet_kvErase_ne (db : KVMap) (k k' : List Nat) (h : k' ≠ k) :
    kvGet (kvErase db k) k' = kvGet db k' := by simp [kvGet_kvErase, h]

theorem kvErase_length_le (db : KVMap) (k : List Nat) :
    (kvErase db k).length ≤ db.length := by
  induction db with
  | nil => simp [kvErase]
  | cons e db ih =>
    by_cases he : e.1 = k <;> simp [kvErase, he] <;> omega

theorem kvErase_length_lt (db : KVMap) (k : List Nat) (v : List Nat)
    (h : kvGet db k = some v) : (kvErase db k).length < db.length := by
  induction db with
  | nil => simp [kvGet] at h
  | cons e db ih =>
    by_cases he : e.1 = k
    · have := kvErase_length_le db k
      simp only [kvErase, if_pos he, List.length_cons]
      omega
    · simp only [kvGet, if_neg he] at h
      have := ih h
      simp only [kvErase, if_neg he, List.length_cons]
      omega

theorem kvGet_mem (db : KVMap) (k v : List Nat) (h : kvGet db k = some v) :
    (k, v) ∈ db := by
  induction db with
  | nil => simp [kvGet] at h
  | cons e db ih =>
    by_cases he : e.1 = k
    · simp only [kvGet, if_pos he, Option.some.injEq] at h
      obtain ⟨e1, e2⟩ := e
      simp only at he h
      subst he; subst h
      exact List.mem_cons_self _ _
    · simp only [kvGet, if_neg he] at h
      right
      exact ih h

/-- Counter map used to model the `Inc` counters of the underlying
libraries: a finite map from byte keys to signed 64-bit counters.
An absent counter reads as 0. -/
abbrev CounterMap := List (List Nat × Int)

def cGet : CounterMap → List Nat → Int
  | [], _ => 0
  | e :: c, k => if e.1 = k then e.2 else cGet c k

def cErase : CounterMap → List Nat → CounterMap
  | [], _ => []
  | e :: c, k => if e.1 = k then cErase c k else e :: cErase c k

def cSet (c : CounterMap) (k : List Nat) (v : Int) : CounterMap :=
  (k, v) :: cErase c k

theorem cGet_cErase (c : CounterMap) (k k' : List Nat) :
    cGet (cErase c k) k' = if k' = k then 0 else cGet c k' := by
  induction c with
  | nil => by_cases h : k' = k <;> simp [cErase, cGet, h]
  | cons e c ih =>
    by_cases h : k' = k
    · subst h
      by_cases he : e.1 = k' <;> simp [cErase, cGet, he, ih]
    · by_cases he : e.1 = k
      · have hek : ¬ e.1 = k' := fun hh => h ((hh.symm.trans he))
        have h' : ¬ k = k' := fun hh => h hh.symm
        simp [cErase, cGet, he, hek, ih, h, h']
      · by_cases hek : e.1 = k' <;> simp [cErase, cGet, he, hek, ih, h]

theorem cGet_cSet (c : CounterMap) (k : List Nat) (v : Int) (k' : List Nat) :
    cGet (cSet c k v) k' = if k' = k then v else cGet c k' := by
  by_cases h : k' = k
  · simp [cSet, cGet, h]
  · have h' : ¬ k = k' := fun hh => h hh.symm
    simp [cSet, cGet, h, h', cGet_cErase]

@[simp] theorem cGet_cSet_self (c : CounterMap) (k : List Nat) (v : Int) :
    cGet (cSet c k v) k = v := by simp [cGet_cSet]

theorem cGet_cSet_ne (c : CounterMap) (k : List Nat) (v : Int) (k' : List Nat)
    (h : k' ≠ k) : cGet (cSet c k v) k' = cGet c k' := by simp [cGet_cSet, h]

/-! ## The chunked transactional KV substrate (`kvdb.go` / `Tx`)

`Tx.Put` splits a value into chunks of `maxSize` bytes stored under
composite keys `p ∥ 0 ∥ key ∥ 0 ∥ varint(i)` (`i` starting at 1, varint in
a 5-byte zero-padded buffer).  Every chunk but the last has length exactly
`maxSize` with a trailing zero sentinel byte; the last has length
`< maxSize`.  `OpenKVDB` forces `maxSize ≥ 2`, so the model takes
`maxSize = m + 2` for a parameter `m`.

The `Inc` counters (`p ∥ "-seq"` sequence counters, `p ∥ "-n"` size
counters) are kept in the separate `CounterMap`: their keys have no zero
separator after the bucket name, so in Go they can never collide with a
chunk key of the same bucket.
-/

/-- Default `maxKVSize` of `OpenKVDB`. -/
def maxKVSize : Nat := 65787

/-- Composite chunk key built by `NewKVDBKeys`/`Next`:
`p ∥ 0 ∥ key ∥ 0 ∥ varint(i)` padded to 5 varint bytes. -/
def chunkKey (p k : List Nat) (i : Nat) : List Nat :=
  p ++ [0] ++ k ++ [0] ++ chunkSuffix i

/-- `sizePrefix`: the per-bucket size counter key `p ∥ "-n"`. -/
def sizeKeyOf (p : List Nat) : List Nat := p ++ [45, 110]

/-- The per-bucket sequence counter key `p ∥ "-seq"`. -/
def seqKeyOf (p : List Nat) : List Nat := p ++ [45, 115, 101, 113]

theorem chunkKey_idx_injective (p k : List Nat) (i j : Nat)
    (h : chunkKey p k i = chunkKey p k j) : i = j := by
  have h' : chunkSuffix i = chunkSuffix j := by simpa [chunkKey] using h
  exact chunkSuffix_injective h'

theorem takeWhile_ne_zero_append (p rest : List Nat) (hp : ∀ x ∈ p, x ≠ 0) :
    (p ++ 0 :: rest).takeWhile (fun x => x ≠ 0) = p := by
  induction p with
  | nil => simp [List.takeWhile]
  | cons a p ih =>
    have ha : a ≠ 0 := hp a (by simp)
    have hp' : ∀ x ∈ p, x ≠ 0 := fun x hx => hp x (by simp [hx])
    have ih' := ih hp'
    simp only [ne_eq, decide_not] at ih' ⊢
    simp [List.takeWhile, ha, ih']

/-- Chunk keys of buckets with different zero-free names never collide. -/
theorem chunkKey_bucket_ne (p p' k k' : List Nat) (i j : Nat)
    (hp : ∀ x ∈ p, x ≠ 0) (hp' : ∀ x ∈ p', x ≠ 0) (hne : p ≠ p') :
    chunkKey p k i ≠ chunkKey p' k' j := by
  intro h
  apply hne
  have h1 := takeWhile_ne_zero_append p (k ++ [0] ++ chunkSuffix i) hp
  have h2 := takeWhile_ne_zero_append p' (k' ++ [0] ++ chunkSuffix j) hp'
  have e1 : chunkKey p k i = p ++ 0 :: (k ++ [0] ++ chunkSuffix i) := by
    simp [chunkKey]
  have e2 : chunkKey p' k' j = p' ++ 0 :: (k' ++ [0] ++ chunkSuffix j) := by
    simp [chunkKey]
  rw [← h1, ← h2, ← e1, ← e2, h]

/-- State of one `KVDB` file: the data records plus the `Inc` counters. -/
structure KVState where
  data : KVMap
  counters : CounterMap

def emptyKVState : KVState := { data := [], counters := [] }

/-- The chunk list produced by the `Tx.Put` loop for value `v` with
`maxSize = m + 2`: full chunks take `maxSize - 1` payload bytes plus the
zero sentinel left in the write buffer; the final chunk is the short
remainder (possibly empty). -/
def putChunks (m : Nat) (v : List Nat) : List (List Nat) :=
  if h : m + 2 ≤ v.length then
    (v.take (m + 1) ++ [0]) :: putChunks m (v.drop (m + 1))
  else [v]
decreasing_by simp; omega

/-- Store successive chunks under increasing chunk indices (the
`tx.db.Set` calls of the `Tx.Put` loop). -/
def writeChunks (db : KVMap) (p k : List Nat) : Nat → List (List Nat) → KVMap
  | _, [] => db
  | i, c :: cs => writeChunks (kvSet db (chunkKey p k i) c) p k (i + 1) cs

/-- The `Tx.Delete` loop: delete chunks from index `i` until the chain
ends; the boolean reports whether the terminating (short) chunk was found,
in which case `Tx.Delete` decrements the size counter. -/
def deleteChunks (m : Nat) (db : KVMap) (p k : List Nat) (i : Nat) :
    KVMap × Bool :=
  match h : kvGet db (chunkKey p k i) with
  | none => (db, false)
  | some data =>
    if data.length < m + 2 then (kvErase db (chunkKey p k i), true)
    else deleteChunks m (kvErase db (chunkKey p k i)) p k (i + 1)
termination_by db.length
decreasing_by exact kvErase_length_lt db _ data h

/-- `Tx.Delete`. -/
def txDelete (m : Nat) (st : KVState) (p k : List Nat) : KVState :=
  let r := deleteChunks m st.data p k 1
  { data := r.1
    counters :=
      if r.2 then cSet st.counters (sizeKeyOf p) (cGet st.counters (sizeKeyOf p) - 1)
      else st.counters }

/-- `Tx.Put`: delete the previous chain, write the new chunks, increment
the size counter. -/
def txPut (m : Nat) (st : KVState) (p k v : List Nat) : KVState :=
  let st1 := txDelete m st p k
  { data := writeChunks st1.data p k 1 (putChunks m v)
    counters := cSet st1.counters (sizeKeyOf p) (cGet st1.counters (sizeKeyOf p) + 1) }

/-- The `Tx.Get` loop.  `acc = none` means the Go `buf` is still nil; a
first empty chunk turns it into the non-nil empty slice.  The fuel
argument only bounds the iteration: `txGet` passes one more than the
number of entries, which the development proves is always enough. -/
def getChunksAux (m : Nat) (db : KVMap) (p k : List Nat) :
    Nat → Nat → Option (List Nat) → Option (List Nat)
  | 0, _, acc => acc
  | fuel + 1, i, acc =>
    match kvGet db (chunkKey p k i) with
    | none => acc
    | some data =>
      let buf := acc.getD [] ++ data
      if data.length = m + 2 then
        getChunksAux m db p k fuel (i + 1) (some buf.dropLast)
      else some buf

/-- `Tx.Get`: reassemble the chunk chain, `none` when absent. -/
def txGet (m : Nat) (st : KVState) (p k : List Nat) : Option (List Nat) :=
  getChunksAux m st.data p k (st.data.length + 1) 1 none

/-- `Tx.inc`/`Tx.IncSeq`: bump the `p ∥ "-seq"` counter, returning the new
value (`kv.DB.Inc` semantics: absent counters read as 0). -/
def txIncSeq (st : KVState) (p : List Nat) (delta : Int) : Int × KVState :=
  let v := cGet st.counters (seqKeyOf p) + delta
  (v, { st with counters := cSet st.counters (seqKeyOf p) v })

/-- `Tx.GetSeq` is `Tx.inc` with a zero delta. -/
def txGetSeq (st : KVState) (p : List Nat) : Int :=
  (txIncSeq st p 0).1

/-- `Tx.List`: keys of the bucket, recognised as composite keys carrying
the bucket name and the 6-byte first-chunk suffix `0 ∥ varint(1)`, with
the framing stripped.  (The Go loop walks the sorted underlying map and
stops at the first key without the bucket's first-chunk framing; over a
sorted enumeration that break is equivalent to the filter used here.) -/
def txList (st : KVState) (p : List Nat) : List String :=
  st.data.filterMap (fun e =>
    if e.1.take (p.length + 1) = p ++ [0] ∧
        p.length + 1 + 6 ≤ e.1.length ∧
        e.1.drop (e.1.length - 6) = [0, 1, 0, 0, 0, 0] then
      some (stringOfBytes
        ((e.1.drop (p.length + 1)).take (e.1.length - 6 - (p.length + 1))))
    else none)

/-! ### Chain lemmas for the chunked substrate -/

theorem putChunks_length_pos (m : Nat) (v : List Nat) :
    0 < (putChunks m v).length := by
  rw [putChunks]
  split <;> simp

theorem kvGet_writeChunks_frame (p k : List Nat) (cs : List (List Nat)) :
    ∀ (db : KVMap) (i : Nat) (q : List Nat),
      (∀ j, i ≤ j → q ≠ chunkKey p k j) →
      kvGet (writeChunks db p k i cs) q = kvGet db q := by
  induction cs with
  | nil => intro db i q _; rfl
  | cons c cs ih =>
    intro db i q hq
    show kvGet (writeChunks (kvSet db (chunkKey p k i) c) p k (i + 1) cs) q = _
    rw [ih _ (i + 1) q (fun j hj => hq j (by omega))]
    exact kvGet_kvSet_ne _ _ _ _ (hq i (le_refl i))

theorem kvGet_writeChunks_mem (p k : List Nat) (cs : List (List Nat)) :
    ∀ (db : KVMap) (i j : Nat) (hj : j < cs.length),
      kvGet (writeChunks db p k i cs) (chunkKey p k (i + j)) =
        some (cs.get ⟨j, hj⟩) := by
  induction cs with
  | nil => intro db i j hj; simp at hj
  | cons c cs ih =>
    intro db i j hj
    match j with
    | 0 =>
      show kvGet (writeChunks (kvSet db (chunkKey p k i) c) p k (i + 1) cs) _ = _
      rw [Nat.add_zero]
      rw [kvGet_writeChunks_frame p k cs _ (i + 1) _
        (fun j' hj' h => by
          have := chunkKey_idx_injective p k i j' h
          omega)]
      simp
    | j + 1 =>
      show kvGet (writeChunks (kvSet db (chunkKey p k i) c) p k (i + 1) cs) _ = _
      have : i + (j + 1) = (i + 1) + j := by omega
      rw [this]
      exact ih _ (i + 1) j (by simpa using hj)

theorem kvGet_deleteChunks_frame (m : Nat) (p k : List Nat) :
    ∀ (db : KVMap) (i : Nat) (q : List Nat),
      (∀ j, i ≤ j → q ≠ chunkKey p k j) →
      kvGet (deleteChunks m db p k i).1 q = kvGet db q := by
  intro db i q hq
  induction db, p, k, i using deleteChunks.induct m with
  | case1 db p k i hnone =>
    rw [deleteChunks, hnone]
  | case2 db p k i data hsome hshort =>
    rw [deleteChunks, hsome]
    simp only [if_pos hshort]
    exact kvGet_kvErase_ne _ _ _ (hq i (le_refl i))
  | case3 db p k i data hsome hlong ih =>
    rw [deleteChunks, hsome]
    simp only [if_neg hlong]
    rw [ih (fun j hj => hq j (by omega))]
    exact kvGet_kvErase_ne _ _ _ (hq i (le_refl i))

/-- After the `Tx.Delete` loop ran from index `i`, the chunk at index `i`
is gone (it was either deleted or never there). -/
theorem kvGet_deleteChunks_self (m : Nat) (p k : List Nat) (db : KVMap)
    (i : Nat) : kvGet (deleteChunks m db p k i).1 (chunkKey p k i) = none := by
  induction db, p, k, i using deleteChunks.induct m with
  | case1 db p k i hnone =>
    rw [deleteChunks, hnone]
    exact hnone
  | case2 db p k i data hsome hshort =>
    rw [deleteChunks, hsome]
    simp [if_pos hshort]
  | case3 db p k i data hsome hlong ih =>
    rw [deleteChunks, hsome]
    simp only [if_neg hlong]
    rw [kvGet_deleteChunks_frame m p k _ (i + 1) _
      (fun j hj h => by
        have := chunkKey_idx_injective p k i j h
        omega)]
    simp

theorem present_keys_le (db : KVMap) (ks : List (List Nat)) (hnd : ks.Nodup)
    (hall : ∀ q ∈ ks, ∃ v, kvGet db q = some v) : ks.length ≤ db.length := by
  induction ks generalizing db with
  | nil => simp
  | cons q ks ih =>
    obtain ⟨v, hv⟩ := hall q (by simp)
    have hlt := kvErase_length_lt db q v hv
    have hrest : ∀ q' ∈ ks, ∃ v', kvGet (kvErase db q) q' = some v' := by
      intro q' hq'
      obtain ⟨v', hv'⟩ := hall q' (by simp [hq'])
      refine ⟨v', ?_⟩
      rw [kvGet_kvErase_ne db q q' ?_]
      · exact hv'
      · intro h
        subst h
        exact (List.nodup_cons.mp hnd).1 hq'
    have := ih (kvErase db q) (List.nodup_cons.mp hnd).2 hrest
    simp only [List.length_cons]
    omega

/-- Reading a chain that has exactly the shape written by `Tx.Put`
reassembles the original value. -/
theorem getChunksAux_chain (m : Nat) (db : KVMap) (p k : List Nat) :
    ∀ (v : List Nat) (i : Nat) (acc : Option (List Nat)) (fuel : Nat),
      (putChunks m v).length ≤ fuel →
      (∀ j (hj : j < (putChunks m v).length),
        kvGet db (chunkKey p k (i + j)) = some ((putChunks m v).get ⟨j, hj⟩)) →
      getChunksAux m db p k fuel i acc = some (acc.getD [] ++ v) := by
  intro v
  induction v using putChunks.induct m with
  | case1 v hlen ih =>
    intro i acc fuel hfuel hchain
    rw [putChunks, dif_pos hlen] at hfuel hchain
    have h0 := hchain 0 (by simp)
    simp only [Nat.add_zero, List.get] at h0
    obtain ⟨fuel, rfl⟩ : ∃ f, fuel = f + 1 := by
      cases fuel with
      | zero => simp at hfuel
      | succ f => exact ⟨f, rfl⟩
    rw [getChunksAux, h0]
    have htake : (v.take (m + 1)).length = m + 1 := by
      rw [List.length_take]
      omega
    have hclen : (v.take (m + 1) ++ [0]).length = m + 2 := by
      simp [htake]
    simp only [hclen, if_pos rfl]
    have hdrop : (Option.getD acc [] ++ (v.take (m + 1) ++ [0])).dropLast =
        Option.getD acc [] ++ v.take (m + 1) := by
      rw [← List.append_assoc]
      exact List.dropLast_concat
    rw [hdrop]
    rw [ih (i + 1) (some (Option.getD acc [] ++ v.take (m + 1))) fuel
      (by simpa using hfuel)
      (fun j hj => by
        have := hchain (j + 1) (by simpa using Nat.succ_lt_succ hj)
        simpa [Nat.add_assoc, Nat.add_comm 1 j] using this)]
    simp [List.append_assoc]
  | case2 v hlen =>
    intro i acc fuel hfuel hchain
    rw [putChunks, dif_neg hlen] at hfuel hchain
    have h0 := hchain 0 (by simp)
    simp only [Nat.add_zero, List.get] at h0
    obtain ⟨fuel, rfl⟩ : ∃ f, fuel = f + 1 := by
      cases fuel with
      | zero => simp at hfuel
      | succ f => exact ⟨f, rfl⟩
    rw [getChunksAux, h0]
    have : ¬ v.length = m + 2 := by omega
    simp [this]

/-- `Tx.Get` of a chain with the `Tx.Put` shape. -/
theorem txGet_eq_of_chain (m : Nat) (st : KVState) (p k v : List Nat)
    (h : ∀ j (hj : j < (putChunks m v).length),
      kvGet st.data (chunkKey p k (1 + j)) = some ((putChunks m v).get ⟨j, hj⟩)) :
    txGet m st p k = some v := by
  have hn : (putChunks m v).length ≤ st.data.length := by
    have hnd : ((List.range (putChunks m v).length).map
        (fun j => chunkKey p k (1 + j))).Nodup := by
      refine List.Nodup.map ?_ (List.nodup_range _)
      intro a b hab
      have := chunkKey_idx_injective p k (1 + a) (1 + b) hab
      omega
    have hall : ∀ q ∈ (List.range (putChunks m v).length).map
        (fun j => chunkKey p k (1 + j)), ∃ w, kvGet st.data q = some w := by
      intro q hq
      obtain ⟨j, hj, rfl⟩ := List.mem_map.mp hq
      have hj' := List.mem_range.mp hj
      exact ⟨_, h j hj'⟩
    have := present_keys_le st.data _ hnd hall
    simpa using this
  have := getChunksAux_chain m st.data p k v 1 none (st.data.length + 1)
    (by omega) h
  simpa [txGet] using this

/-- `Tx.Get` returns `none` as soon as the first chunk is absent. -/
theorem txGet_none_of_first_absent (m : Nat) (st : KVState) (p k : List Nat)
    (h : kvGet st.data (chunkKey p k 1) = none) : txGet m st p k = none := by
  rw [txGet, getChunksAux, h]

/-- The KV round trip at transaction level (claim helper): a `Put`
followed by a `Get` of the same bucket/key returns the value written. -/
theorem txGet_txPut_same (m : Nat) (st : KVState) (p k v : List Nat) :
    txGet m (txPut m st p k v) p k = some v := by
  apply txGet_eq_of_chain
  intro j hj
  show kvGet (writeChunks (txDelete m st p k).data p k 1 (putChunks m v)) _ = _
  exact kvGet_writeChunks_mem p k (putChunks m v) _ 1 j hj

/-- After `Tx.Delete`, `Tx.Get` of the same bucket/key is `none`. -/
theorem txGet_txDelete_same (m : Nat) (st : KVState) (p k : List Nat) :
    txGet m (txDelete m st p k) p k = none := by
  apply txGet_none_of_first_absent
  exact kvGet_deleteChunks_self m p k st.data 1

/-! ## The offer store (`store.go`, KVDB variant) -/

def kvMetaBucket : List Nat := [109]
def kvOffersBucket : List Nat := [111]
def kvLocationsBucket : List Nat := [108]
def kvDeletedBucket : List Nat := [100]
def kvDeletedKeysBucket : List Nat := [100, 107]

/-- Go `time.Time` restricted to the values the store manipulates: the
zero value, or `time.Unix(s, 0)`. -/
inductive GoTime where
  | zeroT : GoTime
  | unixT (s : Int) : GoTime
deriving DecidableEq

/-- `time.Time.Unix()`: seconds since epoch (the zero time is year 1). -/
def GoTime.unixSec : GoTime → Int
  | .zeroT => -62135596800
  | .unixT s => s

/-- Modelled from the spec: stand-in for Go `time.Time.Format(time.RFC3339)`
(the Go formatter itself is standard-library code outside this repository;
the development only relies on the formatted string being a function of the
time value). -/
def formatRFC3339 : GoTime → String
  | .zeroT => "0001-01-01T00:00:00Z"
  | .unixT s => "rfc3339:" ++ toString s

/-- Go `uint64(x)` for an `int64` x: two's-complement wrap. -/
def wu64 (i : Int) : Nat := (i % (2 ^ 64 : Int)).toNat

/-- `DeletedOffer{id uint64, date string}`. -/
structure DeletedOffer where
  Id : Nat
  Date : String
deriving DecidableEq

/-- `takeUvarint` is `binary.Uvarint` returning the remaining bytes. -/
def takeUvarint : List Nat → Option (Nat × List Nat)
  | [] => none
  | b :: rest =>
    if b < 128 then some (b, rest)
    else match takeUvarint rest with
      | some (n, r) => some (b - 128 + 128 * n, r)
      | none => none

theorem takeUvarint_putUvarintBytes (n : Nat) (rest : List Nat) :
    takeUvarint (putUvarintBytes n ++ rest) = some (n, rest) := by
  induction n using Nat.strong_induction_on generalizing rest with
  | _ n ih =>
    rw [putUvarintBytes]
    by_cases h : n < 128
    · simp [h, takeUvarint]
    · have hd : n / 128 < n := Nat.div_lt_self (by omega) (by omega)
      have : ¬ (n % 128 + 128 < 128) := by omega
      simp only [h, if_false, List.cons_append, takeUvarint, this, ih (n / 128) hd rest]
      simp only [Option.some.injEq, Prod.mk.injEq]
      refine ⟨by omega, trivial⟩

/-- Modelled from the spec: stand-in for `encoding/json.Marshal` of one
`DeletedOffer` record (the JSON codec is standard-library code outside this
repository; the store relies only on the decode/encode round trip). -/
def encodeDeletedOffer (d : DeletedOffer) : List Nat :=
  putUvarintBytes d.Id ++ putUvarintBytes (bytesOfString d.Date).length ++
    bytesOfString d.Date

def encodeDeletedOfferList : List DeletedOffer → List Nat
  | [] => []
  | d :: l => encodeDeletedOffer d ++ encodeDeletedOfferList l

/-- Modelled from the spec: stand-in for `encoding/json.Marshal` of the
`deletedOffers{ids: [...]}` record. -/
def encodeDeletedOffers (l : List DeletedOffer) : List Nat :=
  putUvarintBytes l.length ++ encodeDeletedOfferList l

def decodeDeletedOffersAux : Nat → List Nat → Option (List DeletedOffer)
  | 0, _ => some []
  | c + 1, bytes =>
    match takeUvarint bytes with
    | none => none
    | some (i, r1) =>
      match takeUvarint r1 with
      | none => none
      | some (len, r2) =>
        if len ≤ r2.length then
          match decodeDeletedOffersAux c (r2.drop len) with
          | none => none
          | some tail => some (⟨i, stringOfBytes (r2.take len)⟩ :: tail)
        else none

/-- Modelled from the spec: stand-in for `encoding/json.Unmarshal` of the
`deletedOffers` record. -/
def decodeDeletedOffers (bytes : List Nat) : Option (List DeletedOffer) :=
  match takeUvarint bytes with
  | none => none
  | some (c, r) => decodeDeletedOffersAux c r

theorem decodeDeletedOffersAux_encode (l : List DeletedOffer) (rest : List Nat) :
    decodeDeletedOffersAux l.length (encodeDeletedOfferList l ++ rest) =
      some l := by
  induction l generalizing rest with
  | nil => simp [decodeDeletedOffersAux]
  | cons d l ih =>
    simp only [List.length_cons, encodeDeletedOfferList, encodeDeletedOffer,
      decodeDeletedOffersAux, List.append_assoc, takeUvarint_putUvarintBytes]
    rw [if_pos (by simp)]
    rw [List.take_left, List.drop_left]
    rw [ih rest]
    simp [stringOfBytes_bytesOfString]

theorem decodeDeletedOffers_encode (l : List DeletedOffer) :
    decodeDeletedOffers (encodeDeletedOffers l) = some l := by
  rw [decodeDeletedOffers, encodeDeletedOffers, takeUvarint_putUvarintBytes]
  have := decodeDeletedOffersAux_encode l []
  simpa using this

/-- `Store.Get`. -/
def storeGet (m : Nat) (st : KVState) (id : String) : Option (List Nat) :=
  txGet m st kvOffersBucket (bytesOfString id)

/-- `Store.Put`: invalidate the cached location, write the offer bytes. -/
def storePut (m : Nat) (st : KVState) (id : String) (data : List Nat) : KVState :=
  txPut m (txDelete m st kvLocationsBucket (bytesOfString id))
    kvOffersBucket (bytesOfString id) data

/-- `Store.Delete(id, now)`: move the offer bytes under a fresh virtual id
in the `d` bucket, append a `{virtualId, date}` record to `dk/<id>`, drop
the cached location and the live offer — all in one transaction (a decode
error rolls the whole transaction back). -/
def storeDelete (m : Nat) (st : KVState) (id : String) (now : GoTime) : KVState :=
  let k := bytesOfString id
  match txGet m st kvOffersBucket k with
  | none => st
  | some data =>
    let r := txIncSeq st kvDeletedBucket 1
    let vid := wu64 r.1
    let st2 := txPut m r.2 kvDeletedBucket (putUvarintBytes vid) data
    let prev :=
      match txGet m st2 kvDeletedKeysBucket k with
      | none => some []
      | some d => decodeDeletedOffers d
    match prev with
    | none => st
    | some prevList =>
      let st3 := txPut m st2 kvDeletedKeysBucket k
        (encodeDeletedOffers (prevList ++ [⟨vid, formatRFC3339 now⟩]))
      let st4 := txDelete m st3 kvLocationsBucket k
      txDelete m st4 kvOffersBucket k

/-- `Store.ListDeletedIds`. -/
def storeListDeletedIds (st : KVState) : List String :=
  txList st kvDeletedKeysBucket

/-- `Store.ListDeletedOffers` (an absent `dk` record fails JSON decoding
of nil, so the result is an error, modelled as `none`). -/
def storeListDeletedOffers (m : Nat) (st : KVState) (id : String) :
    Option (List DeletedOffer) :=
  match txGet m st kvDeletedKeysBucket (bytesOfString id) with
  | none => none
  | some d => decodeDeletedOffers d

/-- `Store.GetDeleted`. -/
def storeGetDeleted (m : Nat) (st : KVState) (vid : Nat) : Option (List Nat) :=
  txGet m st kvDeletedBucket (putUvarintBytes vid)

/-! ### Frame lemmas at transaction level -/

/-- The chain stored for `(p, k)` in `db` is exactly the chunked encoding
of `v`. -/
def chainIs (m : Nat) (db : KVMap) (p k v : List Nat) : Prop :=
  ∀ j (hj : j < (putChunks m v).length),
    kvGet db (chunkKey p k (1 + j)) = some ((putChunks m v).get ⟨j, hj⟩)

theorem txGet_of_chainIs (m : Nat) (st : KVState) (p k v : List Nat)
    (h : chainIs m st.data p k v) : txGet m st p k = some v :=
  txGet_eq_of_chain m st p k v h

theorem chainIs_txPut_self (m : Nat) (st : KVState) (p k v : List Nat) :
    chainIs m (txPut m st p k v).data p k v := by
  intro j hj
  show kvGet (writeChunks (txDelete m st p k).data p k 1 (putChunks m v)) _ = _
  exact kvGet_writeChunks_mem p k (putChunks m v) _ 1 j hj

theorem kvGet_txDelete_frame (m : Nat) (st : KVState) (p k q : List Nat)
    (hq : ∀ j, q ≠ chunkKey p k j) :
    kvGet (txDelete m st p k).data q = kvGet st.data q :=
  kvGet_deleteChunks_frame m p k st.data 1 q (fun j _ => hq j)

theorem kvGet_txPut_frame (m : Nat) (st : KVState) (p k v q : List Nat)
    (hq : ∀ j, q ≠ chunkKey p k j) :
    kvGet (txPut m st p k v).data q = kvGet st.data q := by
  show kvGet (writeChunks (txDelete m st p k).data p k 1 (putChunks m v)) q = _
  rw [kvGet_writeChunks_frame p k _ _ 1 q (fun j _ => hq j)]
  exact kvGet_txDelete_frame m st p k q hq

/-- Keys of a bucket named differently (both names zero-free) are never
chain keys of another bucket. -/
theorem chunkKey_ne_bucket (pA kA : List Nat) (iA : Nat) (p k : List Nat)
    (hzA : ∀ x ∈ pA, x ≠ 0) (hz : ∀ x ∈ p, x ≠ 0) (hne : pA ≠ p) :
    ∀ j, chunkKey pA kA iA ≠ chunkKey p k j :=
  fun j => chunkKey_bucket_ne pA p kA k iA j hzA hz hne

theorem chainIs_frame (m : Nat) (db db' : KVMap) (p k v : List Nat)
    (h : ∀ i, kvGet db' (chunkKey p k i) = kvGet db (chunkKey p k i)) :
    chainIs m db p k v → chainIs m db' p k v :=
  fun hc j hj => (h (1 + j)).trans (hc j hj)

theorem chainIs_txPut_other (m : Nat) (st : KVState) (p k v p' k' w : List Nat)
    (hz : ∀ x ∈ p, x ≠ 0) (hz' : ∀ x ∈ p', x ≠ 0) (hne : p ≠ p')
    (h : chainIs m st.data p k v) :
    chainIs m (txPut m st p' k' w).data p k v := by
  refine chainIs_frame m st.data _ p k v (fun i => ?_) h
  exact kvGet_txPut_frame m st p' k' w _ (chunkKey_ne_bucket p k i p' k' hz hz' hne)

theorem chainIs_txDelete_other (m : Nat) (st : KVState) (p k v p' k' : List Nat)
    (hz : ∀ x ∈ p, x ≠ 0) (hz' : ∀ x ∈ p', x ≠ 0) (hne : p ≠ p')
    (h : chainIs m st.data p k v) :
    chainIs m (txDelete m st p' k').data p k v := by
  refine chainIs_frame m st.data _ p k v (fun i => ?_) h
  exact kvGet_txDelete_frame m st p' k' _ (chunkKey_ne_bucket p k i p' k' hz hz' hne)

theorem putUvarintBytes_one : putUvarintBytes 1 = [1] := by
  rw [putUvarintBytes]
  norm_num

theorem chunkSuffix_one : chunkSuffix 1 = [1, 0, 0, 0, 0] := by
  rw [chunkSuffix, putUvarintBytes_one]
  rfl

/-- A key whose first chunk is stored shows up in `Tx.List` of its
bucket. -/
theorem mem_txList_of_chunk1 (st : KVState) (p idB c : List Nat)
    (h : kvGet st.data (chunkKey p idB 1) = some c) :
    stringOfBytes idB ∈ txList st p := by
  have hmem := kvGet_mem _ _ _ h
  rw [txList]
  apply List.mem_filterMap.mpr
  refine ⟨(chunkKey p idB 1, c), hmem, ?_⟩
  have hkey : chunkKey p idB 1 = (p ++ [0]) ++ (idB ++ [0, 1, 0, 0, 0, 0]) := by
    simp [chunkKey, chunkSuffix_one]
  have hplen : (p ++ [0]).length = p.length + 1 := by simp
  have hlen : (chunkKey p idB 1).length = p.length + 1 + (idB.length + 6) := by
    rw [hkey]; simp; omega
  have hc1 : (chunkKey p idB 1).take (p.length + 1) = p ++ [0] := by
    rw [hkey, ← hplen, List.take_left]
  have hc2 : p.length + 1 + 6 ≤ (chunkKey p idB 1).length := by omega
  have hkey' : chunkKey p idB 1 = ((p ++ [0]) ++ idB) ++ [0, 1, 0, 0, 0, 0] := by
    rw [hkey]; simp [List.append_assoc]
  have hc3 : (chunkKey p idB 1).drop ((chunkKey p idB 1).length - 6) =
      [0, 1, 0, 0, 0, 0] := by
    have hl : (chunkKey p idB 1).length - 6 = ((p ++ [0]) ++ idB).length := by
      simp only [hlen, List.length_append, hplen]
      omega
    rw [hl, hkey', List.drop_left]
  have hstrip : ((chunkKey p idB 1).drop (p.length + 1)).take
      ((chunkKey p idB 1).length - 6 - (p.length + 1)) = idB := by
    have hd : (chunkKey p idB 1).drop (p.length + 1) = idB ++ [0, 1, 0, 0, 0, 0] := by
      rw [hkey, ← hplen, List.drop_left]
    have ht : (chunkKey p idB 1).length - 6 - (p.length + 1) = idB.length := by
      omega
    rw [hd, ht, List.take_left]
  rw [if_pos ⟨hc1, hc2, hc3⟩, hstrip]

/-! ### Facts about the state left by `Store.Delete` -/

theorem store_delete_final_facts (m : Nat) (stb : KVState) (k : List Nat)
    (vid : Nat) (bytes : List Nat) (newList : List DeletedOffer) :
    txGet m
      (txDelete m (txDelete m
        (txPut m (txPut m stb kvDeletedBucket (putUvarintBytes vid) bytes)
          kvDeletedKeysBucket k (encodeDeletedOffers newList))
        kvLocationsBucket k) kvOffersBucket k)
      kvOffersBucket k = none ∧
    stringOfBytes k ∈ txList
      (txDelete m (txDelete m
        (txPut m (txPut m stb kvDeletedBucket (putUvarintBytes vid) bytes)
          kvDeletedKeysBucket k (encodeDeletedOffers newList))
        kvLocationsBucket k) kvOffersBucket k)
      kvDeletedKeysBucket ∧
    txGet m
      (txDelete m (txDelete m
        (txPut m (txPut m stb kvDeletedBucket (putUvarintBytes vid) bytes)
          kvDeletedKeysBucket k (encodeDeletedOffers newList))
        kvLocationsBucket k) kvOffersBucket k)
      kvDeletedKeysBucket k = some (encodeDeletedOffers newList) ∧
    txGet m
      (txDelete m (txDelete m
        (txPut m (txPut m stb kvDeletedBucket (putUvarintBytes vid) bytes)
          kvDeletedKeysBucket k (encodeDeletedOffers newList))
        kvLocationsBucket k) kvOffersBucket k)
      kvDeletedBucket (putUvarintBytes vid) = some bytes := by
  have zdk : ∀ x ∈ kvDeletedKeysBucket, x ≠ 0 := by decide
  have zd : ∀ x ∈ kvDeletedBucket, x ≠ 0 := by decide
  have zl : ∀ x ∈ kvLocationsBucket, x ≠ 0 := by decide
  have zo : ∀ x ∈ kvOffersBucket, x ≠ 0 := by decide
  have ndl : kvDeletedKeysBucket ≠ kvLocationsBucket := by decide
  have ndo : kvDeletedKeysBucket ≠ kvOffersBucket := by decide
  have nddk : kvDeletedBucket ≠ kvDeletedKeysBucket := by decide
  have ndl' : kvDeletedBucket ≠ kvLocationsBucket := by decide
  have ndo' : kvDeletedBucket ≠ kvOffersBucket := by decide
  set st2 := txPut m stb kvDeletedBucket (putUvarintBytes vid) bytes with hst2
  set st3 := txPut m st2 kvDeletedKeysBucket k (encodeDeletedOffers newList) with hst3
  set st4 := txDelete m st3 kvLocationsBucket k with hst4
  set st5 := txDelete m st4 kvOffersBucket k with hst5
  refine ⟨txGet_txDelete_same m st4 kvOffersBucket k, ?_, ?_, ?_⟩
  · -- the dk first chunk is still stored in the final state
    have hchain := chainIs_txPut_self m st2 kvDeletedKeysBucket k
      (encodeDeletedOffers newList)
    have h0 := hchain 0 (putChunks_length_pos m _)
    have h4 : kvGet st4.data (chunkKey kvDeletedKeysBucket k (1 + 0)) =
        kvGet st3.data (chunkKey kvDeletedKeysBucket k (1 + 0)) :=
      kvGet_txDelete_frame m st3 kvLocationsBucket k _
        (chunkKey_ne_bucket kvDeletedKeysBucket k (1 + 0) kvLocationsBucket k zdk zl ndl)
    have h5 : kvGet st5.data (chunkKey kvDeletedKeysBucket k (1 + 0)) =
        kvGet st4.data (chunkKey kvDeletedKeysBucket k (1 + 0)) :=
      kvGet_txDelete_frame m st4 kvOffersBucket k _
        (chunkKey_ne_bucket kvDeletedKeysBucket k (1 + 0) kvOffersBucket k zdk zo ndo)
    exact mem_txList_of_chunk1 st5 kvDeletedKeysBucket k _
      (h5.trans (h4.trans h0))
  · -- the dk record decodes to the new list
    apply txGet_of_chainIs
    apply chainIs_txDelete_other m st4 kvDeletedKeysBucket k _ kvOffersBucket k zdk zo ndo
    apply chainIs_txDelete_other m st3 kvDeletedKeysBucket k _ kvLocationsBucket k zdk zl ndl
    exact chainIs_txPut_self m st2 kvDeletedKeysBucket k _
  · -- the moved offer bytes are readable under the virtual id
    apply txGet_of_chainIs
    apply chainIs_txDelete_other m st4 kvDeletedBucket _ _ kvOffersBucket k zd zo ndo'
    apply chainIs_txDelete_other m st3 kvDeletedBucket _ _ kvLocationsBucket k zd zl ndl'
    apply chainIs_txPut_other m st2 kvDeletedBucket _ _ kvDeletedKeysBucket k _ zd zdk nddk
    exact chainIs_txPut_self m stb kvDeletedBucket _ bytes

/-- C2: for every bucket `p`, key `k` and byte value `v`, `Tx.Get(p,k)`
after `Tx.Put(p,k,v)` returns `v` — over any prior state, so in particular
for the empty value, for values much larger than the chunk size, and when
the `Put` overwrites a previously stored longer value (the overwrite first
deletes the previous chunk chain, so no stale chunks are read back). -/
theorem claim_c2_chunk_roundtrip (m : Nat) (st : KVState) (p k v w : List Nat) :
    txGet m (txPut m st p k v) p k = some v ∧
    txGet m (txPut m st p k []) p k = some [] ∧
    txGet m (txPut m (txPut m st p k w) p k v) p k = some v :=
  ⟨txGet_txPut_same m st p k v, txGet_txPut_same m st p k [],
    txGet_txPut_same m (txPut m st p k w) p k v⟩

/-- C1: if the offer `id` is present with bytes `bytes` (and the `dk`
journal entry for `id`, when present, is a well-formed encoded record
list), then after `Store.Delete(id, t)`: `Get(id)` is `none`, `id` is
listed by `ListDeletedIds`, and `ListDeletedOffers(id)` holds a record
whose date is `t` formatted as RFC3339 and whose virtual id retrieves the
pre-delete bytes through `GetDeleted`; and if an offer is absent,
`Store.Delete` is a no-op leaving the store unchanged. -/
theorem claim_c1_store_delete (m : Nat) (st : KVState) (id : String)
    (t : GoTime) (bytes : List Nat)
    (hpresent : storeGet m st id = some bytes)
    (hdk : kvGet st.data (chunkKey kvDeletedKeysBucket (bytesOfString id) 1) = none ∨
      ∃ l : List DeletedOffer,
        chainIs m st.data kvDeletedKeysBucket (bytesOfString id)
          (encodeDeletedOffers l)) :
    storeGet m (storeDelete m st id t) id = none ∧
    id ∈ storeListDeletedIds (storeDelete m st id t) ∧
    (∃ ds, storeListDeletedOffers m (storeDelete m st id t) id = some ds ∧
      ∃ d ∈ ds, d.Date = formatRFC3339 t ∧
        storeGetDeleted m (storeDelete m st id t) d.Id = some bytes) ∧
    (∀ st' : KVState, storeGet m st' id = none → storeDelete m st' id t = st') := by
  have zdk : ∀ x ∈ kvDeletedKeysBucket, x ≠ 0 := by decide
  have zd : ∀ x ∈ kvDeletedBucket, x ≠ 0 := by decide
  have nddk : kvDeletedBucket ≠ kvDeletedKeysBucket := by decide
  have hget : txGet m st kvOffersBucket (bytesOfString id) = some bytes := hpresent
  obtain ⟨prevList, hprev⟩ :
      ∃ pl, (match txGet m (txPut m (txIncSeq st kvDeletedBucket 1).2
            kvDeletedBucket
            (putUvarintBytes (wu64 (txIncSeq st kvDeletedBucket 1).1)) bytes)
          kvDeletedKeysBucket (bytesOfString id) with
        | none => some []
        | some d => decodeDeletedOffers d) = some pl := by
    rcases hdk with habs | ⟨l, hchain⟩
    · refine ⟨[], ?_⟩
      have hnone : txGet m (txPut m (txIncSeq st kvDeletedBucket 1).2
          kvDeletedBucket
          (putUvarintBytes (wu64 (txIncSeq st kvDeletedBucket 1).1)) bytes)
          kvDeletedKeysBucket (bytesOfString id) = none := by
        apply txGet_none_of_first_absent
        rw [kvGet_txPut_frame m _ kvDeletedBucket _ bytes _
          (chunkKey_ne_bucket kvDeletedKeysBucket (bytesOfString id) 1
            kvDeletedBucket _ zdk zd (by decide))]
        exact habs
      rw [hnone]
    · refine ⟨l, ?_⟩
      have hchain2 : chainIs m (txPut m (txIncSeq st kvDeletedBucket 1).2
          kvDeletedBucket
          (putUvarintBytes (wu64 (txIncSeq st kvDeletedBucket 1).1)) bytes).data
          kvDeletedKeysBucket (bytesOfString id) (encodeDeletedOffers l) := by
        apply chainIs_txPut_other m _ kvDeletedKeysBucket _ _ kvDeletedBucket _ _
          zdk zd (by decide)
        exact hchain
      rw [txGet_of_chainIs m _ kvDeletedKeysBucket _ _ hchain2]
      exact decodeDeletedOffers_encode l
  have hD : storeDelete m st id t =
      txDelete m (txDelete m (txPut m (txPut m (txIncSeq st kvDeletedBucket 1).2
        kvDeletedBucket
        (putUvarintBytes (wu64 (txIncSeq st kvDeletedBucket 1).1)) bytes)
        kvDeletedKeysBucket (bytesOfString id)
        (encodeDeletedOffers (prevList ++
          [⟨wu64 (txIncSeq st kvDeletedBucket 1).1, formatRFC3339 t⟩])))
        kvLocationsBucket (bytesOfString id)) kvOffersBucket (bytesOfString id) := by
    simp only [storeDelete, hget, hprev]
  obtain ⟨f1, f2, f3, f4⟩ := store_delete_final_facts m
    (txIncSeq st kvDeletedBucket 1).2 (bytesOfString id)
    (wu64 (txIncSeq st kvDeletedBucket 1).1) bytes
    (prevList ++ [⟨wu64 (txIncSeq st kvDeletedBucket 1).1, formatRFC3339 t⟩])
  refine ⟨?_, ?_, ?_, ?_⟩
  · rw [hD]
    exact f1
  · rw [hD]
    have := f2
    rwa [stringOfBytes_bytesOfString] at this
  · refine ⟨prevList ++ [⟨wu64 (txIncSeq st kvDeletedBucket 1).1,
      formatRFC3339 t⟩], ?_, ?_⟩
    · rw [hD]
      show (match txGet m _ kvDeletedKeysBucket (bytesOfString id) with
        | none => none
        | some d => decodeDeletedOffers d) = _
      rw [f3]
      exact decodeDeletedOffers_encode _
    · refine ⟨⟨wu64 (txIncSeq st kvDeletedBucket 1).1, formatRFC3339 t⟩,
        List.mem_append_right _ (by simp), rfl, ?_⟩
      rw [hD]
      exact f4
  · intro st' h
    have h' : txGet m st' kvOffersBucket (bytesOfString id) = none := h
    simp only [storeDelete, h']

/-- Witness for C1 at a concrete store holding one offer. -/
theorem claim_c1_witness :
    storeGet 0 (storeDelete 0 (storePut 0 emptyKVState "1" [7]) "1"
      (GoTime.unixT 99)) "1" = none ∧
    "1" ∈ storeListDeletedIds (storeDelete 0 (storePut 0 emptyKVState "1" [7])
      "1" (GoTime.unixT 99)) ∧
    (∃ ds, storeListDeletedOffers 0 (storeDelete 0
        (storePut 0 emptyKVState "1" [7]) "1" (GoTime.unixT 99)) "1" = some ds ∧
      ∃ d ∈ ds, d.Date = formatRFC3339 (GoTime.unixT 99) ∧
        storeGetDeleted 0 (storeDelete 0 (storePut 0 emptyKVState "1" [7]) "1"
          (GoTime.unixT 99)) d.Id = some [7]) ∧
    (∀ st' : KVState, storeGet 0 st' "1" = none →
      storeDelete 0 st' "1" (GoTime.unixT 99) = st') := by
  apply claim_c1_store_delete 0 (storePut 0 emptyKVState "1" [7]) "1"
    (GoTime.unixT 99) [7]
  · exact txGet_txPut_same 0 _ kvOffersBucket (bytesOfString "1") [7]
  · left
    have zdk : ∀ x ∈ kvDeletedKeysBucket, x ≠ 0 := by decide
    have zl : ∀ x ∈ kvLocationsBucket, x ≠ 0 := by decide
    have zo : ∀ x ∈ kvOffersBucket, x ≠ 0 := by decide
    show kvGet (txPut 0 (txDelete 0 emptyKVState kvLocationsBucket
      (bytesOfString "1")) kvOffersBucket (bytesOfString "1") [7]).data _ = none
    rw [kvGet_txPut_frame 0 _ kvOffersBucket _ [7] _
      (chunkKey_ne_bucket kvDeletedKeysBucket (bytesOfString "1") 1
        kvOffersBucket _ zdk zo (by decide))]
    rw [kvGet_txDelete_frame 0 _ kvLocationsBucket _ _
      (chunkKey_ne_bucket kvDeletedKeysBucket (bytesOfString "1") 1
        kvLocationsBucket _ zdk zl (by decide))]
    rfl

/-! ## Generic association map (bolt buckets) -/

section AList

variable {κ : Type} {β : Type} [DecidableEq κ]

def alGet : List (κ × β) → κ → Option β
  | [], _ => none
  | e :: l, k => if e.1 = k then some e.2 else alGet l k

def alErase : List (κ × β) → κ → List (κ × β)
  | [], _ => []
  | e :: l, k => if e.1 = k then alErase l k else e :: alErase l k

def alSet (l : List (κ × β)) (k : κ) (v : β) : List (κ × β) :=
  (k, v) :: alErase l k

theorem alGet_alErase (l : List (κ × β)) (k k' : κ) :
    alGet (alErase l k) k' = if k' = k then none else alGet l k' := by
  induction l with
  | nil => by_cases h : k' = k <;> simp [alErase, alGet, h]
  | cons e l ih =>
    by_cases h : k' = k
    · subst h
      by_cases he : e.1 = k' <;> simp [alErase, alGet, he, ih]
    · by_cases he : e.1 = k
      · have hek : ¬ e.1 = k' := fun hh => h ((hh.symm.trans he))
        have h' : ¬ k = k' := fun hh => h hh.symm
        simp [alErase, alGet, he, hek, ih, h, h']
      · by_cases hek : e.1 = k' <;> simp [alErase, alGet, he, hek, ih, h]

theorem alGet_alSet (l : List (κ × β)) (k : κ) (v : β) (k' : κ) :
    alGet (alSet l k v) k' = if k' = k then some v else alGet l k' := by
  by_cases h : k' = k
  · simp [alSet, alGet, h]
  · have h' : ¬ k = k' := fun hh => h hh.symm
    simp [alSet, alGet, h, h', alGet_alErase]

@[simp] theorem alGet_alSet_self (l : List (κ × β)) (k : κ) (v : β) :
    alGet (alSet l k v) k = some v := by simp [alGet_alSet]

theorem alGet_alSet_ne (l : List (κ × β)) (k : κ) (v : β) (k' : κ)
    (h : k' ≠ k) : alGet (alSet l k v) k' = alGet l k' := by
  simp [alGet_alSet, h]

end AList

/-! ## The bolt-backed offer store (`store.go`, bolt variant with dated
locations)

Only the `offers` and `locations` buckets participate in the location
cache claims.  Bolt values are opaque byte strings; `GetLocation`
distinguishes only the zero-length blob (written by `PutLocation` with a
nil location) from a well-formed `writeBinaryLocation` record followed by
a little-endian unix stamp, so a stored blob is modelled by its decoded
content: `none` for the zero-length blob, `some (loc, ts)` otherwise. -/

/-- The serialised fields of a `Location` (geocoder.go): four strings and
the `float64` coordinates, modelled as reals. -/
structure GoLocation where
  city : String
  county : String
  state : String
  country : String
  lat : ℝ
  lon : ℝ

/-- Content of a `locations` bucket value. -/
abbrev LocEntry := Option (GoLocation × Int)

structure BoltStore where
  offers : List (String × List Nat)
  locations : List (String × LocEntry)

/-- `Store.PutLocation` (bolt variant): fails (`none`) when the offer is
absent; otherwise writes the location blob.  When `loc` is nil, nothing at
all is written into the buffer — no date stamp — producing the zero-length
blob. -/
def boltPutLocation (st : BoltStore) (id : String) (loc : Option GoLocation)
    (date : GoTime) : Option BoltStore :=
  match alGet st.offers id with
  | none => none
  | some _ =>
    let entry : LocEntry :=
      match loc with
      | some l => some (l, date.unixSec)
      | none => none
    some { st with locations := alSet st.locations id entry }

/-- `Store.GetLocation` (bolt variant): an absent key yields the zero
time; a zero-length blob yields the sentinel `time.Unix(1, 0)`; otherwise
the decoded location and its stamp. -/
def boltGetLocation (st : BoltStore) (id : String) :
    Option GoLocation × GoTime :=
  match alGet st.locations id with
  | none => (none, GoTime.zeroT)
  | some none => (none, GoTime.unixT 1)
  | some (some (l, ts)) => (some l, GoTime.unixT ts)

/-- C3 (counterexample): with offer `a` present, `PutLocation("a", none,
t)` for `t = unix 5` succeeds, but `GetLocation("a")` returns the fixed
sentinel date `time.Unix(1, 0)`, not `t` — the stamp is not encoded for a
nil location, refuting the claim as stated. -/
theorem claim_c3_counterexample :
    boltPutLocation ⟨[("a", [1])], []⟩ "a" none (GoTime.unixT 5) =
      some ⟨[("a", [1])], [("a", (none : LocEntry))]⟩ ∧
    boltGetLocation ⟨[("a", [1])], [("a", (none : LocEntry))]⟩ "a" =
      (none, GoTime.unixT 1) ∧
    GoTime.unixT 1 ≠ GoTime.unixT 5 := by
  refine ⟨rfl, rfl, by decide⟩

/-- C3 (amended): for every id whose offer is present, `PutLocation(id,
none, t)` succeeds and a following `GetLocation(id)` yields `(none,
time.Unix(1, 0))` — a fixed non-zero sentinel date, independent of `t`,
because the stamp is only encoded together with a non-nil location; and
with no location record present, `GetLocation(id)` yields `(none, 0)`. -/
theorem claim_c3_put_location_none (st : BoltStore) (id : String) (t : GoTime)
    (bs : List Nat) (hpresent : alGet st.offers id = some bs) :
    (∃ st', boltPutLocation st id none t = some st' ∧
      boltGetLocation st' id = (none, GoTime.unixT 1)) ∧
    (∀ st0 : BoltStore, alGet st0.locations id = none →
      boltGetLocation st0 id = (none, GoTime.zeroT)) := by
  constructor
  · refine ⟨{ st with locations := alSet st.locations id none }, ?_, ?_⟩
    · rw [boltPutLocation, hpresent]
    · show (match alGet (alSet st.locations id none) id with
        | none => ((none : Option GoLocation), GoTime.zeroT)
        | some none => (none, GoTime.unixT 1)
        | some (some (l, ts)) => (some l, GoTime.unixT ts)) = _
      rw [alGet_alSet_self]
  · intro st0 h
    rw [boltGetLocation, h]

/-- Witness for C3 (amended) at a concrete one-offer store. -/
theorem claim_c3_witness :
    (∃ st', boltPutLocation ⟨[("a", [1])], []⟩ "a" none (GoTime.unixT 5) =
        some st' ∧ boltGetLocation st' "a" = (none, GoTime.unixT 1)) ∧
    (∀ st0 : BoltStore, alGet st0.locations "a" = none →
      boltGetLocation st0 "a" = (none, GoTime.zeroT)) :=
  claim_c3_put_location_none ⟨[("a", [1])], []⟩ "a" (GoTime.unixT 5) [1] rfl

/-! ## The crawler's lister (`crawl.go`, `enumerateOffers`)

`searchOffers(start, count, …)` is abstracted as a function
`remote : start → count → ids`.  The loop fetches a page of `count = 250`
ids from `start`, advances `start` by `count − overlap` with `overlap = 5`,
hands the page to the callback, and stops when the page holds fewer than
`count` ids.  The returned trace is the sequence of `(start, page)` pairs
seen by the callback; the fuel bounds the otherwise unbounded loop. -/
def enumerateOffers (remote : Nat → Nat → List String) :
    Nat → Nat → List (Nat × List String)
  | 0, _ => []
  | fuel + 1, start =>
    let ids := remote start 250
    (start, ids) ::
      (if ids.length < 250 then []
       else enumerateOffers remote fuel (start + (250 - 5)))

set_option maxRecDepth 4000 in
/-- C5 (counterexample): on a remote whose pages always hold 247 ids, the
enumeration terminates after the very first page (independently of fuel),
although 247 ≥ 250 − overlap = 245 — refuting "terminates exactly when a
page returns fewer than 250 − overlap items". -/
theorem claim_c5_counterexample :
    enumerateOffers (fun _ _ => List.replicate 247 "x") 10 0 =
      [(0, List.replicate 247 "x")] ∧
    enumerateOffers (fun _ _ => List.replicate 247 "x") 1000 0 =
      [(0, List.replicate 247 "x")] ∧
    250 - 5 ≤ 247 := by
  refine ⟨by decide, by decide, by norm_num⟩

/-- C5 (amended): the lister requests pages of 250 at starts `s + 245·i`
(overlap 5 between consecutive pages) and terminates exactly after the
first page holding fewer than 250 items. -/
theorem claim_c5_lister_pagination (remote : Nat → Nat → List String)
    (fuel k s : Nat) (hk : k < fuel)
    (hfull : ∀ i < k, 250 ≤ (remote (s + 245 * i) 250).length)
    (hlast : (remote (s + 245 * k) 250).length < 250) :
    enumerateOffers remote fuel s =
      (List.range (k + 1)).map
        (fun i => (s + 245 * i, remote (s + 245 * i) 250)) := by
  induction k generalizing s fuel with
  | zero =>
    obtain ⟨f, rfl⟩ : ∃ f, fuel = f + 1 := by
      cases fuel with
      | zero => omega
      | succ f => exact ⟨f, rfl⟩
    simp only [Nat.mul_zero, Nat.add_zero] at hlast
    simp only [enumerateOffers]
    rw [if_pos hlast]
    simp [List.range_succ]
  | succ k ih =>
    obtain ⟨f, rfl⟩ : ∃ f, fuel = f + 1 := by
      cases fuel with
      | zero => omega
      | succ f => exact ⟨f, rfl⟩
    have h0 := hfull 0 (by omega)
    simp only [Nat.mul_zero, Nat.add_zero] at h0
    have hnotlt : ¬ (remote s 250).length < 250 := by omega
    rw [enumerateOffers]
    simp only [hnotlt, if_false]
    rw [ih f (s + (250 - 5)) (by omega)
      (fun i hi => by
        have := hfull (i + 1) (by omega)
        have heq : s + 245 * (i + 1) = s + (250 - 5) + 245 * i := by omega
        rwa [heq] at this)
      (by
        have heq : s + 245 * (k + 1) = s + (250 - 5) + 245 * k := by omega
        rwa [heq] at hlast)]
    conv_rhs => rw [List.range_succ_eq_map]
    simp only [List.map_cons, List.map_map, Nat.mul_zero, Nat.add_zero]
    congr 1
    apply List.map_congr_left
    intro i _
    simp only [Function.comp_apply]
    have h245 : s + (250 - 5) + 245 * i = s + 245 * (i + 1) := by omega
    rw [h245]

/-- Witness for C5 (amended): a remote serving one full page then a short
page; the trace is exactly those two pages at starts 0 and 245. -/
theorem claim_c5_witness :
    enumerateOffers
      (fun st _ => if st = 0 then List.replicate 250 "x" else ["y"]) 5 0 =
      (List.range 2).map
        (fun i => (0 + 245 * i,
          (fun st _ => if st = 0 then List.replicate 250 "x" else ["y"])
            (0 + 245 * i) 250)) := by
  apply claim_c5_lister_pagination
    (fun st _ => if st = 0 then List.replicate 250 "x" else ["y"]) 5 1 0
  · omega
  · intro i hi
    interval_cases i
    show 250 ≤ (if (0 + 245 * 0 : Nat) = 0 then List.replicate 250 "x"
      else ["y"]).length
    rw [if_pos (by norm_num), List.length_replicate]
  · show (if (0 + 245 * 1 : Nat) = 0 then List.replicate 250 "x"
      else ["y"]).length < 250
    rw [if_neg (by norm_num)]
    norm_num

/-! ## Geocoder cache key canonicalization (`geocoder.go`) -/

/-- `strings.ToLower` restricted to ASCII letters (the program's country
codes and canonicalized queries are ASCII). -/
def lowerChar (c : Char) : Char :=
  if 'A' ≤ c ∧ c ≤ 'Z' then Char.ofNat (c.toNat + 32) else c

def goToLower (s : String) : String := String.mk (s.toList.map lowerChar)

/-- `makeKeyAndCountryCode`: only the country code is lowercased (with
`unk` for an empty code); the query text is used verbatim. -/
def makeKeyAndCountryCode (q code : String) : String × String :=
  let code1 := goToLower code
  let code2 := if code1 = "" then "unk" else code1
  (q ++ "-" ++ code2, code2)

/-- ASCII whitespace recogniser for the spec-side `trim`. -/
def isSpaceG (c : Char) : Bool :=
  c = ' ' ∨ c = '\t' ∨ c = '\n' ∨ c = '\r'

/-- Spec-side definition: `trim` of the specification's key formula. -/
def specTrim (s : String) : String :=
  String.mk (((s.toList.dropWhile isSpaceG).reverse.dropWhile isSpaceG).reverse)

/-- Spec-side definition: the key formula the specification asserts,
`lower(trim(q)) ∥ "-" ∥ lower(cc or "unk")`. -/
def specCacheKey (q cc : String) : String :=
  goToLower (specTrim q) ++ "-" ++ (if cc = "" then "unk" else goToLower cc)

/-- Geocoder cache state: the raw-response bucket `c` and the decoded
location bucket `p` (an unresolvable cached query stores an empty blob in
`p`, modelled as `none`). -/
structure GeoCache where
  c : List (String × List Nat)
  p : List (String × Option GoLocation)

/-- `Cache.Put`: write both buckets under the same key. -/
def cachePut (cache : GeoCache) (key : String) (data : List Nat)
    (pos : Option GoLocation) : GeoCache :=
  { c := alSet cache.c key data, p := alSet cache.p key pos }

/-- `Cache.GetLocation`: `found` distinguishes a cached-unresolvable entry
(empty blob) from a cache miss. -/
def cacheGetLocation (cache : GeoCache) (key : String) :
    Option GoLocation × Bool :=
  match alGet cache.p key with
  | none => (none, false)
  | some pos => (pos, true)

/-- `Geocoder.GetCachedLocation`: look up under the canonicalized key. -/
def getCachedLocation (cache : GeoCache) (q cc : String) :
    Option GoLocation × Bool :=
  cacheGetLocation cache (makeKeyAndCountryCode q cc).1

/-- The `cache.Put` performed on `Geocode`'s successful remote path: the
store key comes from the same `makeKeyAndCountryCode`. -/
def geocodeStoreCache (cache : GeoCache) (q cc : String) (data : List Nat)
    (loc : Option GoLocation) : GeoCache :=
  cachePut cache (makeKeyAndCountryCode q cc).1 data loc

/-- C6 (counterexample): the cache key is not `lower(trim(q)) ∥ "-" ∥
lower(cc)` — the query text is neither trimmed nor lowercased — and two
queries differing only in case map to two different cache entries. -/
theorem claim_c6_counterexample :
    (makeKeyAndCountryCode " Paris " "FR").1 ≠ specCacheKey " Paris " "FR" ∧
    (makeKeyAndCountryCode "Paris" "").1 ≠ (makeKeyAndCountryCode "paris" "").1 := by
  constructor <;> decide

/-- C6 (amended): the geocoder cache key is `q ∥ "-" ∥ lower(cc)` with
`unk` substituted for an empty code — `q` verbatim — and the store and
lookup paths use the same key, so a `(q, cc)` pair reads back what it
stored (query canonicalization happens upstream, in `fixLocation`, not in
the cache key). -/
theorem claim_c6_cache_key (q cc : String) (cache : GeoCache)
    (data : List Nat) (loc : Option GoLocation) :
    (makeKeyAndCountryCode q cc).1 =
      q ++ "-" ++ (if goToLower cc = "" then "unk" else goToLower cc) ∧
    getCachedLocation (geocodeStoreCache cache q cc data loc) q cc =
      (loc, true) := by
  refine ⟨rfl, ?_⟩
  show (match alGet (alSet cache.p (makeKeyAndCountryCode q cc).1 loc)
      (makeKeyAndCountryCode q cc).1 with
    | none => ((none : Option GoLocation), false)
    | some pos => (pos, true)) = (loc, true)
  rw [alGet_alSet_self]

/-! ## The spatial index (`spatial.go`) -/

/-- `rtreego.Rect` in two dimensions: a corner `(lon, lat)` and the two
side lengths.  Go `float64` arithmetic is modelled over the reals. -/
structure GeoRect where
  px : ℝ
  py : ℝ
  lx : ℝ
  ly : ℝ

/-- `OfferLoc`. -/
structure OfferLocEntry where
  id : String
  date : GoTime
  loc : GeoRect

/-- `SpatialIndex`: the `known` map owns the entries; `Add`/`Remove` keep
the r-tree contents equal to the values of `known`, so the r-tree is
modelled by those values. -/
structure SpatialIndexM where
  known : List (String × OfferLocEntry)

def spatialAdd (s : SpatialIndexM) (o : OfferLocEntry) : SpatialIndexM :=
  { known := alSet s.known o.id o }

def spatialRemove (s : SpatialIndexM) (id : String) : SpatialIndexM :=
  { known := alErase s.known id }

/-- `SpatialIndex.List`: allocates `make([]string, len(known))` — `n`
zero-value strings — and then appends the `n` indexed ids. -/
def spatialList (s : SpatialIndexM) : List String :=
  (List.replicate s.known.length "") ++ s.known.map (fun e => e.1)

/-- C10: with `n > 0` entries indexed, `SpatialIndex.List` returns a slice
of length `2·n`: `n` empty strings followed by the `n` indexed ids — so a
consumer such as the spatial indexer's `sync` diff receives `n` spurious
empty-string ids in its indexed set. -/
theorem claim_c10_spatial_list (s : SpatialIndexM) (h : 0 < s.known.length) :
    (spatialList s).length = 2 * s.known.length ∧
    (spatialList s).take s.known.length = List.replicate s.known.length "" ∧
    (spatialList s).drop s.known.length = s.known.map (fun e => e.1) ∧
    "" ∈ spatialList s := by
  refine ⟨?_, ?_, ?_, ?_⟩
  · simp [spatialList]; omega
  · rw [spatialList]
    exact List.take_left' (by simp)
  · rw [spatialList]
    exact List.drop_left' (by simp)
  · rw [spatialList]
    apply List.mem_append_left
    exact List.mem_replicate.mpr ⟨by omega, rfl⟩

/-- Witness for C10 at a one-entry index. -/
theorem claim_c10_witness :
    (spatialList ⟨[("x", ⟨"x", GoTime.zeroT, ⟨0, 0, 0, 0⟩⟩)]⟩).length = 2 * 1 ∧
    (spatialList ⟨[("x", ⟨"x", GoTime.zeroT, ⟨0, 0, 0, 0⟩⟩)]⟩).take 1 =
      List.replicate 1 "" ∧
    (spatialList ⟨[("x", ⟨"x", GoTime.zeroT, ⟨0, 0, 0, 0⟩⟩)]⟩).drop 1 =
      [("x", (⟨"x", GoTime.zeroT, ⟨0, 0, 0, 0⟩⟩ : OfferLocEntry))].map
        (fun e => e.1) ∧
    "" ∈ spatialList ⟨[("x", ⟨"x", GoTime.zeroT, ⟨0, 0, 0, 0⟩⟩)]⟩ :=
  claim_c10_spatial_list ⟨[("x", ⟨"x", GoTime.zeroT, ⟨0, 0, 0, 0⟩⟩)]⟩
    (by simp)

/-! ## The durable index queue (`queue.go`)

Bolt-backed FIFO.  Bucket `q` maps `varint(seq)` to the JSON-encoded
`Queued` record, bucket `s` holds the consumer cursor `minSeq` under key
`"m"`, and bolt's per-bucket `NextSequence` counter of `q` is the `qseq`
field.  The JSON codec for `Queued` is standard-library code outside this
repository, modelled by an injective byte encoding (only the round trip is
relied on). -/

/-- `Queued{seq uint64, id string, op uint8}` (`op`: 0 = add, 1 = remove). -/
structure Queued where
  seq : Nat
  id : String
  op : Nat
deriving DecidableEq

/-- Modelled from the spec: stand-in for `encoding/json.Marshal` of a
`Queued` record. -/
def encodeQueued (x : Queued) : List Nat :=
  putUvarintBytes x.seq ++ putUvarintBytes x.op ++ bytesOfString x.id

/-- Modelled from the spec: stand-in for `encoding/json.Unmarshal` of a
`Queued` record. -/
def decodeQueued (bytes : List Nat) : Queued :=
  match takeUvarint bytes with
  | none => ⟨0, "", 0⟩
  | some (s, r1) =>
    match takeUvarint r1 with
    | none => ⟨0, "", 0⟩
    | some (o, r2) => ⟨s, stringOfBytes r2, o⟩

theorem decodeQueued_encodeQueued (x : Queued) :
    decodeQueued (encodeQueued x) = x := by
  rw [decodeQueued, encodeQueued, List.append_assoc]
  simp only [takeUvarint_putUvarintBytes, stringOfBytes_bytesOfString]

/-- The `minSeqKey` `"m"`. -/
def qmKey : List Nat := [109]

/-- State of the queue's bolt file. -/
structure BQ where
  q : KVMap
  qseq : Nat
  s : KVMap

def emptyBQ : BQ := ⟨[], 0, []⟩

/-- `IndexQueue.getMinSeq`: decode the cursor; a zero or absent cursor
counts as unset. -/
def getMinSeq (db : BQ) : Nat × Bool :=
  match kvGet db.s qmKey with
  | none => (0, false)
  | some data => (parseUvarint data, parseUvarint data != 0)

def putMinSeq (db : BQ) (bytes : List Nat) : BQ :=
  { db with s := kvSet db.s qmKey bytes }

/-- The `QueueMany` loop; `isFirst` tracks `i == 0`, where the cursor is
initialised if still unset. -/
def queueManyAux (db : BQ) : List Queued → Bool → BQ
  | [], _ => db
  | item :: rest, isFirst =>
    let seq := db.qseq + 1
    let db1 := { db with qseq := seq }
    let keyB := putUvarintBytes seq
    let db2 := if isFirst && !(getMinSeq db1).2 then putMinSeq db1 keyB else db1
    let db3 := { db2 with
      q := kvSet db2.q keyB (encodeQueued { item with seq := seq }) }
    queueManyAux db3 rest false

/-- `IndexQueue.QueueMany`. -/
def queueMany (db : BQ) (items : List Queued) : BQ := queueManyAux db items true

/-- The `FetchMany` read loop from a given sequence number. -/
def fetchManyAux (db : BQ) : Nat → Nat → List Queued
  | _, 0 => []
  | seq, count + 1 =>
    match kvGet db.q (putUvarintBytes seq) with
    | none => []
    | some data => decodeQueued data :: fetchManyAux db (seq + 1) count

/-- `IndexQueue.FetchMany`: read without consuming, starting at the
cursor. -/
def fetchMany (db : BQ) (count : Nat) : List Queued :=
  let r := getMinSeq db
  if r.2 then fetchManyAux db r.1 count else []

/-- The `DeleteMany` loop: delete present entries from the cursor on,
stopping at the first hole; returns the final cursor position. -/
def deleteManyAux (db : BQ) : Nat → Nat → BQ × Nat
  | seq, 0 => (db, seq)
  | seq, count + 1 =>
    match kvGet db.q (putUvarintBytes seq) with
    | none => (db, seq)
    | some _ =>
      deleteManyAux { db with q := kvErase db.q (putUvarintBytes seq) }
        (seq + 1) count

/-- `IndexQueue.DeleteMany`. -/
def deleteMany (db : BQ) (count : Nat) : BQ :=
  let r := getMinSeq db
  if r.2 then
    let rr := deleteManyAux db r.1 count
    putMinSeq rr.1 (putUvarintBytes rr.2)
  else db

/-- A client call against the queue (`FetchMany` is a read-only `View`
transaction and leaves the state unchanged). -/
inductive QueueCall where
  | queue (items : List Queued)
  | fetch (n : Nat)
  | delete (n : Nat)

/-- Run a call sequence against an initially empty queue file. -/
def runQueueCalls (calls : List QueueCall) : BQ :=
  calls.foldl
    (fun db c =>
      match c with
      | .queue items => queueMany db items
      | .fetch _ => db
      | .delete n => deleteMany db n)
    emptyBQ

/-- Spec-side definition: sequence numbers assigned to newly queued items,
starting at `next`. -/
def assignSeqs (next : Nat) : List Queued → List Queued
  | [] => []
  | it :: rest => { it with seq := next } :: assignSeqs (next + 1) rest

/-- Spec-side definition: the reference queue — `(next sequence, pending
entries oldest first)`; `QueueMany` appends with fresh sequence numbers,
`DeleteMany n` consumes the `n` oldest, `FetchMany` reads only. -/
def specQueueStep : Nat × List Queued → QueueCall → Nat × List Queued
  | (next, pend), .queue items =>
    (next + items.length, pend ++ assignSeqs next items)
  | st, .fetch _ => st
  | (next, pend), .delete n => (next, pend.drop n)

/-- Spec-side definition: run the reference queue. -/
def specQueue (calls : List QueueCall) : Nat × List Queued :=
  calls.foldl specQueueStep (1, [])

/-- The coupling invariant between the bolt file and the reference queue:
entries sit at consecutive sequence numbers `lo, …, next − 1`, the cursor
holds `lo` (or is unset while nothing was ever queued), and no other
sequence key is present. -/
def StateOK (db : BQ) (next : Nat) (pend : List Queued) : Prop :=
  ∃ lo, next = lo + pend.length ∧ next = db.qseq + 1 ∧ 1 ≤ lo ∧
    ((kvGet db.s qmKey = none ∧ pend = [] ∧ db.qseq = 0) ∨
      kvGet db.s qmKey = some (putUvarintBytes lo)) ∧
    (∀ j (hj : j < pend.length),
      kvGet db.q (putUvarintBytes (lo + j)) =
        some (encodeQueued (pend.get ⟨j, hj⟩))) ∧
    (∀ s', (s' < lo ∨ next ≤ s') → kvGet db.q (putUvarintBytes s') = none)

theorem StateOK_emptyBQ : StateOK emptyBQ 1 [] := by
  refine ⟨1, rfl, rfl, le_refl 1, Or.inl ⟨rfl, rfl, rfl⟩, ?_, ?_⟩
  · intro j hj
    simp at hj
  · intro s' _
    rfl

/-- `StateOK` with the cursor known to be set to `lo`. -/
def StateOKP (db : BQ) (next : Nat) (pend : List Queued) (lo : Nat) : Prop :=
  next = lo + pend.length ∧ next = db.qseq + 1 ∧ 1 ≤ lo ∧
  kvGet db.s qmKey = some (putUvarintBytes lo) ∧
  (∀ j (hj : j < pend.length),
    kvGet db.q (putUvarintBytes (lo + j)) =
      some (encodeQueued (pend.get ⟨j, hj⟩))) ∧
  (∀ s', (s' < lo ∨ next ≤ s') → kvGet db.q (putUvarintBytes s') = none)

theorem StateOK_of_P {db : BQ} {next : Nat} {pend : List Queued} {lo : Nat}
    (h : StateOKP db next pend lo) : StateOK db next pend :=
  ⟨lo, h.1, h.2.1, h.2.2.1, Or.inr h.2.2.2.1, h.2.2.2.2.1, h.2.2.2.2.2⟩

theorem parseUvarint_put (n : Nat) : parseUvarint (putUvarintBytes n) = n := by
  have := parseUvarint_putUvarintBytes n []
  simpa using this

theorem getMinSeq_eq (db : BQ) (lo : Nat)
    (h : kvGet db.s qmKey = some (putUvarintBytes lo)) (hlo : 1 ≤ lo) :
    getMinSeq db = (lo, true) := by
  unfold getMinSeq
  rw [h]
  show (parseUvarint (putUvarintBytes lo),
    parseUvarint (putUvarintBytes lo) != 0) = (lo, true)
  rw [parseUvarint_put]
  have hb : (lo != 0) = true := by
    simp only [bne_iff_ne, ne_eq]
    omega
  rw [hb]

theorem putUvarintBytes_ne (a b : Nat) (h : a ≠ b) :
    putUvarintBytes a ≠ putUvarintBytes b :=
  fun hh => h (putUvarintBytes_injective hh)

theorem get_append_last {α : Type} (l : List α) (a : α)
    (h : l.length < (l ++ [a]).length) : (l ++ [a]).get ⟨l.length, h⟩ = a := by
  rw [List.get_eq_getElem]
  simp

theorem get_append_init {α : Type} (l : List α) (a : α) (j : Nat)
    (hjl : j < l.length) (h : j < (l ++ [a]).length) :
    (l ++ [a]).get ⟨j, h⟩ = l.get ⟨j, hjl⟩ := by
  rw [List.get_eq_getElem, List.get_eq_getElem]
  exact List.getElem_append_left hjl

theorem StateOKP_queueManyAux (items : List Queued) :
    ∀ (db : BQ) (next : Nat) (pend : List Queued) (lo : Nat) (b : Bool),
      StateOKP db next pend lo →
      StateOKP (queueManyAux db items b) (next + items.length)
        (pend ++ assignSeqs next items) lo := by
  induction items with
  | nil =>
    intro db next pend lo b h
    simpa [queueManyAux, assignSeqs] using h
  | cons item rest ih =>
    intro db next pend lo b h
    obtain ⟨hlen, hseq, hlo, hm, hchain, hout⟩ := h
    have hmin : getMinSeq { db with qseq := next } = (lo, true) :=
      getMinSeq_eq _ lo hm hlo
    have hnew : StateOKP
        ⟨kvSet db.q (putUvarintBytes next)
          (encodeQueued { item with seq := next }), next, db.s⟩
        (next + 1) (pend ++ [{ item with seq := next }]) lo := by
      refine ⟨by simp; omega, rfl, hlo, hm, ?_, ?_⟩
      · intro j hj
        have hjlen : j < pend.length + 1 := by simpa using hj
        by_cases hjl : j < pend.length
        · rw [get_append_init pend _ j hjl hj]
          show kvGet (kvSet db.q (putUvarintBytes next)
            (encodeQueued { item with seq := next })) _ = _
          rw [kvGet_kvSet_ne _ _ _ _ (putUvarintBytes_ne _ _ (by omega))]
          exact hchain j hjl
        · have hje : j = pend.length := by omega
          subst hje
          rw [get_append_last pend _ hj]
          show kvGet (kvSet db.q (putUvarintBytes next)
            (encodeQueued { item with seq := next })) _ = _
          rw [show lo + pend.length = next from hlen.symm, kvGet_kvSet_self]
      · intro s' hs'
        show kvGet (kvSet db.q (putUvarintBytes next)
          (encodeQueued { item with seq := next })) _ = _
        rw [kvGet_kvSet_ne _ _ _ _ (putUvarintBytes_ne _ _ (by omega))]
        exact hout s' (by omega)
    have happ := ih _ (next + 1) (pend ++ [{ item with seq := next }]) lo
      false hnew
    have hlist : (pend ++ [{ item with seq := next }]) ++
        assignSeqs (next + 1) rest = pend ++ assignSeqs next (item :: rest) := by
      rw [List.append_assoc]
      rfl
    have harith : next + 1 + rest.length = next + (item :: rest).length := by
      simp only [List.length_cons]
      omega
    rw [hlist, harith] at happ
    rw [queueManyAux]
    rw [show db.qseq + 1 = next from hseq.symm]
    simp only [hmin, Bool.not_true, Bool.and_false, if_false]
    exact happ

theorem StateOK_queueMany (db : BQ) (next : Nat) (pend : List Queued)
    (items : List Queued) (h : StateOK db next pend) :
    StateOK (queueMany db items) (next + items.length)
      (pend ++ assignSeqs next items) := by
  obtain ⟨lo, hlen, hseq, hlo, hm, hchain, hout⟩ := h
  rcases hm with ⟨hnone, hpend, hq0⟩ | hsome
  · subst hpend
    have hnext1 : next = 1 := by omega
    have hlo1 : lo = 1 := by
      simp at hlen
      omega
    subst hnext1
    subst hlo1
    cases items with
    | nil =>
      simp only [queueMany, queueManyAux, assignSeqs, List.append_nil,
        List.length_nil, Nat.add_zero]
      exact ⟨1, hlen, hseq, hlo, Or.inl ⟨hnone, rfl, hq0⟩, hchain, hout⟩
    | cons item rest =>
      have hmin0 : getMinSeq { db with qseq := db.qseq + 1 } = (0, false) := by
        unfold getMinSeq
        show (match kvGet db.s qmKey with
          | none => ((0 : Nat), false)
          | some data => (parseUvarint data, parseUvarint data != 0)) = _
        rw [hnone]
      have hnew : StateOKP
          ⟨kvSet db.q (putUvarintBytes 1)
            (encodeQueued { item with seq := 1 }), 1,
           kvSet db.s qmKey (putUvarintBytes 1)⟩
          2 [{ item with seq := 1 }] 1 := by
        refine ⟨rfl, rfl, le_refl 1, by rw [kvGet_kvSet_self], ?_, ?_⟩
        · intro j hj
          simp only [List.length_cons, List.length_nil] at hj
          have hj0 : j = 0 := by omega
          subst hj0
          show kvGet (kvSet db.q (putUvarintBytes 1)
            (encodeQueued { item with seq := 1 }))
            (putUvarintBytes (1 + 0)) = _
          rw [show (1 + 0 : Nat) = 1 from rfl, kvGet_kvSet_self]
          rfl
        · intro s' hs'
          show kvGet (kvSet db.q (putUvarintBytes 1)
            (encodeQueued { item with seq := 1 })) _ = _
          rw [kvGet_kvSet_ne _ _ _ _ (putUvarintBytes_ne _ _ (by omega))]
          exact hout s' (by omega)
      have happ := StateOKP_queueManyAux rest _ 2 [{ item with seq := 1 }] 1
        false hnew
      have hlist : [{ item with seq := 1 }] ++ assignSeqs 2 rest =
          [] ++ assignSeqs 1 (item :: rest) := rfl
      have harith : 2 + rest.length = 1 + (item :: rest).length := by
        simp only [List.length_cons]
        omega
      rw [hlist, harith] at happ
      have hstep : queueMany db (item :: rest) =
          queueManyAux
            ⟨kvSet db.q (putUvarintBytes 1)
              (encodeQueued { item with seq := 1 }), 1,
             kvSet db.s qmKey (putUvarintBytes 1)⟩ rest false := by
        rw [queueMany, queueManyAux]
        rw [show db.qseq + 1 = 1 by omega]
        have hmin0' : getMinSeq { db with qseq := 1 } = (0, false) := by
          rw [show (1 : Nat) = db.qseq + 1 by omega]
          exact hmin0
        simp only [hmin0', Bool.not_false, Bool.and_true, if_true, putMinSeq]
      rw [hstep]
      exact StateOK_of_P happ
  · have happ := StateOKP_queueManyAux items db next pend lo true
      ⟨hlen, hseq, hlo, hsome, hchain, hout⟩
    exact StateOK_of_P happ

theorem deleteManyAux_spec (n : Nat) :
    ∀ (db : BQ) (lo : Nat) (pend : List Queued),
      (∀ j (hj : j < pend.length),
        kvGet db.q (putUvarintBytes (lo + j)) =
          some (encodeQueued (pend.get ⟨j, hj⟩))) →
      (∀ s', (s' < lo ∨ lo + pend.length ≤ s') →
        kvGet db.q (putUvarintBytes s') = none) →
      ∃ q', deleteManyAux db lo n =
          (⟨q', db.qseq, db.s⟩, lo + min n pend.length) ∧
        (∀ j (hj : j < (pend.drop n).length),
          kvGet q' (putUvarintBytes (lo + min n pend.length + j)) =
            some (encodeQueued ((pend.drop n).get ⟨j, hj⟩))) ∧
        (∀ s', (s' < lo + min n pend.length ∨ lo + pend.length ≤ s') →
          kvGet q' (putUvarintBytes s') = none) := by
  induction n with
  | zero =>
    intro db lo pend hchain hout
    refine ⟨db.q, ?_, ?_, ?_⟩
    · rw [deleteManyAux]
      simp
    · intro j hj
      simpa using hchain j (by simpa using hj)
    · intro s' hs'
      exact hout s' (by omega)
  | succ n ih =>
    intro db lo pend hchain hout
    cases pend with
    | nil =>
      refine ⟨db.q, ?_, ?_, ?_⟩
      · rw [deleteManyAux]
        rw [hout lo (by simp)]
        simp
      · intro j hj
        simp at hj
      · intro s' hs'
        exact hout s' (by simpa using hs')
    | cons x rest =>
      have h0 : kvGet db.q (putUvarintBytes lo) =
          some (encodeQueued ((x :: rest).get ⟨0, by simp⟩)) := by
        have := hchain 0 (by simp)
        simpa using this
      have hchain2 : ∀ j (hj : j < rest.length),
          kvGet (kvErase db.q (putUvarintBytes lo))
            (putUvarintBytes (lo + 1 + j)) =
            some (encodeQueued (rest.get ⟨j, hj⟩)) := by
        intro j hj
        rw [kvGet_kvErase_ne _ _ _ (putUvarintBytes_ne _ _ (by omega))]
        have := hchain (j + 1) (by simpa using Nat.succ_lt_succ hj)
        have harith : lo + (j + 1) = lo + 1 + j := by omega
        rw [harith] at this
        exact this
      have hout2 : ∀ s', (s' < lo + 1 ∨ (lo + 1) + rest.length ≤ s') →
          kvGet (kvErase db.q (putUvarintBytes lo))
            (putUvarintBytes s') = none := by
        intro s' hs'
        by_cases he : s' = lo
        · subst he
          exact kvGet_kvErase_self _ _
        · rw [kvGet_kvErase_ne _ _ _ (putUvarintBytes_ne _ _ he)]
          exact hout s' (by simp at hs' ⊢; omega)
      obtain ⟨q', heq, hchain', hout'⟩ :=
        ih { db with q := kvErase db.q (putUvarintBytes lo) } (lo + 1) rest
          hchain2 hout2
      refine ⟨q', ?_, ?_, ?_⟩
      · rw [deleteManyAux, h0]
        rw [heq]
        have : lo + 1 + min n rest.length =
            lo + min (n + 1) (x :: rest).length := by
          simp only [List.length_cons]
          omega
        rw [this]
      · intro j hj
        have harith : lo + min (n + 1) (x :: rest).length =
            lo + 1 + min n rest.length := by
          simp only [List.length_cons]
          omega
        rw [harith]
        exact hchain' j hj
      · intro s' hs'
        apply hout' s'
        simp only [List.length_cons] at hs'
        omega

theorem StateOK_deleteMany (db : BQ) (next : Nat) (pend : List Queued)
    (n : Nat) (h : StateOK db next pend) :
    StateOK (deleteMany db n) next (pend.drop n) := by
  obtain ⟨lo, hlen, hseq, hlo, hm, hchain, hout⟩ := h
  rcases hm with ⟨hnone, hpend, hq0⟩ | hsome
  · subst hpend
    have hmin : getMinSeq db = (0, false) := by
      unfold getMinSeq
      show (match kvGet db.s qmKey with
        | none => ((0 : Nat), false)
        | some data => (parseUvarint data, parseUvarint data != 0)) = _
      rw [hnone]
    rw [deleteMany]
    simp only [hmin, if_false]
    exact ⟨lo, by simpa using hlen, hseq, hlo,
      Or.inl ⟨hnone, List.drop_nil, hq0⟩,
      by intro j hj; simp at hj, fun s' hs' => hout s' (by omega)⟩
  · have hmin := getMinSeq_eq db lo hsome hlo
    obtain ⟨q', heq, hchain', hout'⟩ := deleteManyAux_spec n db lo pend hchain
      (fun s' hs' => hout s' (by omega))
    rw [deleteMany]
    simp only [hmin, if_true]
    rw [heq]
    apply @StateOK_of_P _ _ _ (lo + min n pend.length)
    refine ⟨?_, hseq, by omega, ?_, ?_, ?_⟩
    · rw [List.length_drop]
      omega
    · show kvGet (kvSet db.s qmKey _) qmKey = _
      rw [kvGet_kvSet_self]
    · intro j hj
      exact hchain' j hj
    · intro s' hs'
      exact hout' s' (by omega)

theorem fetchManyAux_spec (k : Nat) :
    ∀ (db : BQ) (lo : Nat) (pend : List Queued),
      (∀ j (hj : j < pend.length),
        kvGet db.q (putUvarintBytes (lo + j)) =
          some (encodeQueued (pend.get ⟨j, hj⟩))) →
      kvGet db.q (putUvarintBytes (lo + pend.length)) = none →
      fetchManyAux db lo k = pend.take k := by
  induction k with
  | zero =>
    intro db lo pend _ _
    simp [fetchManyAux]
  | succ k ih =>
    intro db lo pend hchain hend
    cases pend with
    | nil =>
      rw [fetchManyAux]
      rw [show lo + ([] : List Queued).length = lo by simp] at hend
      rw [hend]
      simp
    | cons x rest =>
      have h0 : kvGet db.q (putUvarintBytes lo) =
          some (encodeQueued ((x :: rest).get ⟨0, by simp⟩)) := by
        have := hchain 0 (by simp)
        simpa using this
      rw [fetchManyAux, h0]
      simp only [decodeQueued_encodeQueued]
      have hrec := ih db (lo + 1) rest
        (fun j hj => by
          have := hchain (j + 1) (by simpa using Nat.succ_lt_succ hj)
          have harith : lo + (j + 1) = lo + 1 + j := by omega
          rw [harith] at this
          exact this)
        (by
          have harith : lo + 1 + rest.length = lo + (x :: rest).length := by
            simp
            omega
          rw [harith]
          exact hend)
      rw [hrec]
      rfl

theorem fetchMany_eq (db : BQ) (next : Nat) (pend : List Queued)
    (h : StateOK db next pend) (k : Nat) : fetchMany db k = pend.take k := by
  obtain ⟨lo, hlen, hseq, hlo, hm, hchain, hout⟩ := h
  rcases hm with ⟨hnone, hpend, _⟩ | hsome
  · subst hpend
    have hmin : getMinSeq db = (0, false) := by
      unfold getMinSeq
      show (match kvGet db.s qmKey with
        | none => ((0 : Nat), false)
        | some data => (parseUvarint data, parseUvarint data != 0)) = _
      rw [hnone]
    rw [fetchMany]
    simp [hmin]
  · have hmin := getMinSeq_eq db lo hsome hlo
    rw [fetchMany]
    simp only [hmin, if_true]
    exact fetchManyAux_spec k db lo pend hchain
      (hout (lo + pend.length) (by omega))

theorem StateOK_foldl (calls : List QueueCall) :
    ∀ (db : BQ) (next : Nat) (pend : List Queued), StateOK db next pend →
      StateOK
        (calls.foldl
          (fun db c =>
            match c with
            | .queue items => queueMany db items
            | .fetch _ => db
            | .delete n => deleteMany db n)
          db)
        (calls.foldl specQueueStep (next, pend)).1
        (calls.foldl specQueueStep (next, pend)).2 := by
  induction calls with
  | nil => intro db next pend h; exact h
  | cons c calls ih =>
    intro db next pend h
    cases c with
    | queue items =>
      exact ih _ _ _ (StateOK_queueMany db next pend items h)
    | fetch n => exact ih _ _ _ h
    | delete n =>
      exact ih _ _ _ (StateOK_deleteMany db next pend n h)

theorem runQueueCalls_StateOK (calls : List QueueCall) :
    StateOK (runQueueCalls calls) (specQueue calls).1 (specQueue calls).2 :=
  StateOK_foldl calls emptyBQ 1 [] StateOK_emptyBQ

/-- C4: for every sequence of `QueueMany`, `FetchMany` and `DeleteMany`
calls on an initially empty queue, `FetchMany(k)` returns the `k` oldest
undeleted entries in insertion (sequence) order; in particular after
queueing three items, `FetchMany(2)` returns the first two in order, and
after an additional `DeleteMany(1)`, `FetchMany` of any count returns the
remaining two in order. -/
theorem claim_c4_queue_fifo :
    (∀ (calls : List QueueCall) (k : Nat),
      fetchMany (runQueueCalls calls) k = (specQueue calls).2.take k) ∧
    fetchMany (runQueueCalls
      [.queue [⟨0, "1", 0⟩, ⟨0, "2", 1⟩, ⟨0, "3", 0⟩]]) 2 =
      [⟨1, "1", 0⟩, ⟨2, "2", 1⟩] ∧
    fetchMany (runQueueCalls
      [.queue [⟨0, "1", 0⟩, ⟨0, "2", 1⟩, ⟨0, "3", 0⟩], .delete 1]) 10 =
      [⟨2, "2", 1⟩, ⟨3, "3", 0⟩] := by
  have main : ∀ (calls : List QueueCall) (k : Nat),
      fetchMany (runQueueCalls calls) k = (specQueue calls).2.take k :=
    fun calls k => fetchMany_eq _ _ _ (runQueueCalls_StateOK calls) k
  refine ⟨main, ?_, ?_⟩
  · rw [main [.queue [⟨0, "1", 0⟩, ⟨0, "2", 1⟩, ⟨0, "3", 0⟩]] 2]
    decide
  · rw [main [.queue [⟨0, "1", 0⟩, ⟨0, "2", 1⟩, ⟨0, "3", 0⟩], .delete 1] 10]
    decide

/-! ## The full-text indexer worker (`webindexer.go`)

`indexOne` applies one queued operation and deletes the consumed queue
entry only afterwards.  The store lookup `getStoreOffer` is abstracted as
a function from id to the optional stored document id; the bleve index is
its list of document ids, and the failure behaviour of the external
`index.Index`/`index.Delete` calls is abstracted by two oracles. -/

/-- bleve `index.Index(id, doc)`: upsert of the document id. -/
def bleveIndex (idx : List String) (docId : String) : List String :=
  docId :: idx.erase docId

/-- bleve `index.Delete(id)`. -/
def bleveDelete (idx : List String) (docId : String) : List String :=
  idx.erase docId

/-- Queue plus full-text index, the state `indexOne` acts on. -/
structure IndexerState where
  queue : BQ
  index : List String

/-- `Indexer.indexOne`: on add, a missing offer is skipped (not an error);
on success of the operation the queue entry is deleted; on failure
(`none`) nothing is deleted.  `op` values other than add/remove are an
error before any deletion. -/
def indexOne (store : String → Option String)
    (failIndex failDelete : String → Bool) (st : IndexerState)
    (q : Queued) : Option IndexerState :=
  if q.op = 0 then
    match store q.id with
    | none => some { st with queue := deleteMany st.queue 1 }
    | some docId =>
      if failIndex q.id then none
      else some ⟨deleteMany st.queue 1, bleveIndex st.index docId⟩
  else if q.op = 1 then
    if failDelete q.id then none
    else some ⟨deleteMany st.queue 1, bleveDelete st.index q.id⟩
  else none

/-- Whether `indexOne` fails on this item (the index/delete call errors,
or the op code is unknown). -/
def opFails (store : String → Option String)
    (failIndex failDelete : String → Bool) (q : Queued) : Bool :=
  if q.op = 0 then
    match store q.id with
    | none => false
    | some _ => failIndex q.id
  else if q.op = 1 then failDelete q.id
  else true

/-- The `indexSome` loop body over the fetched batch; the boolean is
`false` when an item failed (the loop aborts, already-consumed entries
stay deleted, the failed entry stays queued). -/
def indexSomeLoop (store : String → Option String)
    (failIndex failDelete : String → Bool) :
    IndexerState → List Queued → IndexerState × Bool
  | st, [] => (st, true)
  | st, q :: rest =>
    match indexOne store failIndex failDelete st q with
    | none => (st, false)
    | some st' => indexSomeLoop store failIndex failDelete st' rest

/-- `Indexer.indexSome`: fetch a batch of 50 and apply it. -/
def indexSome (store : String → Option String)
    (failIndex failDelete : String → Bool) (st : IndexerState) :
    IndexerState × Bool :=
  indexSomeLoop store failIndex failDelete st (fetchMany st.queue 50)

theorem indexOne_success (store : String → Option String)
    (failIndex failDelete : String → Bool) (st : IndexerState) (q : Queued)
    (h : opFails store failIndex failDelete q = false) :
    ∃ idx', indexOne store failIndex failDelete st q =
      some ⟨deleteMany st.queue 1, idx'⟩ := by
  rw [opFails] at h
  rw [indexOne]
  by_cases h0 : q.op = 0
  · rw [if_pos h0] at h ⊢
    cases hs : store q.id with
    | none => exact ⟨st.index, rfl⟩
    | some docId =>
      rw [hs] at h
      have h' : failIndex q.id = false := by simpa using h
      refine ⟨bleveIndex st.index docId, ?_⟩
      show (if failIndex q.id = true then none
          else some (⟨deleteMany st.queue 1, bleveIndex st.index docId⟩ :
            IndexerState)) =
        some (⟨deleteMany st.queue 1, bleveIndex st.index docId⟩ : IndexerState)
      rw [h']
      simp
  · rw [if_neg h0] at h ⊢
    by_cases h1 : q.op = 1
    · rw [if_pos h1] at h ⊢
      rw [if_neg (by rw [h]; exact Bool.false_ne_true)]
      exact ⟨bleveDelete st.index q.id, rfl⟩
    · rw [if_neg h1] at h
      exact absurd h (by decide)

theorem indexSomeLoop_spec (store : String → Option String)
    (failIndex failDelete : String → Bool) (fl : List Queued) :
    ∀ (rest0 : List Queued) (bq : BQ) (next : Nat) (idx : List String),
      StateOK bq next (fl ++ rest0) →
      ∀ j (hj : j < fl.length),
        (∀ i (hi : i < j),
          opFails store failIndex failDelete
            (fl.get ⟨i, lt_trans hi hj⟩) = false) →
        opFails store failIndex failDelete (fl.get ⟨j, hj⟩) = true →
        ∃ bq' idx',
          indexSomeLoop store failIndex failDelete ⟨bq, idx⟩ fl =
            (⟨bq', idx'⟩, false) ∧
          StateOK bq' next ((fl ++ rest0).drop j) := by
  induction fl with
  | nil =>
    intro rest0 bq next idx _ j hj
    simp at hj
  | cons x fl ih =>
    intro rest0 bq next idx hok j hj hsucc hfail
    match j with
    | 0 =>
      have hfx : opFails store failIndex failDelete x = true := hfail
      rw [indexSomeLoop]
      have : indexOne store failIndex failDelete ⟨bq, idx⟩ x = none := by
        rw [indexOne]
        rw [opFails] at hfx
        by_cases h0 : x.op = 0
        · rw [if_pos h0] at hfx ⊢
          cases hs : store x.id with
          | none =>
            rw [hs] at hfx
            simp at hfx
          | some docId =>
            rw [hs] at hfx
            have h' : failIndex x.id = true := by simpa using hfx
            show (if failIndex x.id = true then none
                else some (⟨deleteMany bq 1, bleveIndex idx docId⟩ :
                  IndexerState)) = none
            rw [h']
            simp
        · rw [if_neg h0] at hfx ⊢
          by_cases h1 : x.op = 1
          · rw [if_pos h1] at hfx ⊢
            rw [if_pos hfx]
          · rw [if_neg h1]
      rw [this]
      exact ⟨bq, idx, rfl, by simpa using hok⟩
    | j + 1 =>
      have hsx : opFails store failIndex failDelete x = false := hsucc 0 (by omega)
      obtain ⟨idx1, hone⟩ := indexOne_success store failIndex failDelete
        ⟨bq, idx⟩ x hsx
      rw [indexSomeLoop, hone]
      have hok1 : StateOK (deleteMany bq 1) next (fl ++ rest0) := by
        have := StateOK_deleteMany bq next ((x :: fl) ++ rest0) 1 hok
        simpa using this
      obtain ⟨bq', idx', heq, hfin⟩ := ih rest0 (deleteMany bq 1) next idx1
        hok1 j (by simpa using Nat.lt_of_succ_lt_succ hj)
        (fun i hi => hsucc (i + 1) (by omega))
        hfail
      exact ⟨bq', idx', heq, hfin⟩

/-- C9: for every queue state (coupled to pending entries `pend`) and
failure behaviour of the external index, if the first `j` items of the
fetched batch succeed and item `j` fails, then `indexSome` reports the
failure having deleted exactly the `j` consumed entries: the failing item
is not deleted and is still the head of the queue, so the operation is
retried after a restart. -/
theorem claim_c9_failed_item_not_deleted (store : String → Option String)
    (failIndex failDelete : String → Bool) (bq : BQ) (next : Nat)
    (pend : List Queued) (idx : List String)
    (hok : StateOK bq next pend) (j : Nat) (hj : j < (pend.take 50).length)
    (hsucc : ∀ i (hi : i < j),
      opFails store failIndex failDelete
        ((pend.take 50).get ⟨i, lt_trans hi hj⟩) = false)
    (hfail : opFails store failIndex failDelete
      ((pend.take 50).get ⟨j, hj⟩) = true) :
    ∃ bq' idx',
      indexSome store failIndex failDelete ⟨bq, idx⟩ = (⟨bq', idx'⟩, false) ∧
      StateOK bq' next (pend.drop j) ∧
      fetchMany bq' 1 = [(pend.take 50).get ⟨j, hj⟩] := by
  have hsplit : pend.take 50 ++ pend.drop 50 = pend := List.take_append_drop _ _
  have hok' : StateOK bq next (pend.take 50 ++ pend.drop 50) := by
    rw [hsplit]
    exact hok
  obtain ⟨bq', idx', heq, hfin⟩ := indexSomeLoop_spec store failIndex failDelete
    (pend.take 50) (pend.drop 50) bq next idx hok' j hj hsucc hfail
  refine ⟨bq', idx', ?_, ?_, ?_⟩
  · rw [indexSome]
    rw [fetchMany_eq bq next pend hok 50]
    exact heq
  · rw [hsplit] at hfin
    exact hfin
  · rw [hsplit] at hfin
    rw [fetchMany_eq bq' next (pend.drop j) hfin 1]
    have hjp : j < pend.length := by
      have h50 := hj
      rw [List.length_take] at h50
      omega
    have hgt : (pend.take 50).get ⟨j, hj⟩ = pend.get ⟨j, hjp⟩ := by
      rw [List.get_eq_getElem, List.get_eq_getElem]
      exact List.getElem_take pend
    rw [hgt, List.drop_eq_getElem_cons hjp,
      show (1 : Nat) = 0 + 1 from rfl, List.take_succ_cons, List.take_zero]
    rw [List.get_eq_getElem]

/-- Witness for C9: two queued add operations, the first of which fails at
the index; the batch aborts, nothing is deleted, and the failing item is
still the head of the queue. -/
theorem claim_c9_witness :
    ∃ bq' idx',
      indexSome (fun _ => some "doc") (fun _ => true) (fun _ => false)
          ⟨queueMany emptyBQ [⟨0, "a", 0⟩, ⟨0, "b", 0⟩], []⟩ =
        (⟨bq', idx'⟩, false) ∧
      StateOK bq' 3 [⟨1, "a", 0⟩, ⟨2, "b", 0⟩] ∧
      fetchMany bq' 1 = [⟨1, "a", 0⟩] := by
  have hok : StateOK (queueMany emptyBQ [⟨0, "a", 0⟩, ⟨0, "b", 0⟩]) 3
      [⟨1, "a", 0⟩, ⟨2, "b", 0⟩] :=
    StateOK_queueMany emptyBQ 1 [] [⟨0, "a", 0⟩, ⟨0, "b", 0⟩] StateOK_emptyBQ
  have h := claim_c9_failed_item_not_deleted (fun _ => some "doc")
    (fun _ => true) (fun _ => false) _ 3 [⟨1, "a", 0⟩, ⟨2, "b", 0⟩] [] hok 0
    (by decide) (fun i hi => absurd hi (by omega)) (by decide)
  obtain ⟨bq', idx', h1, h2, h3⟩ := h
  exact ⟨bq', idx', h1, h2, h3⟩

/-! ## Spatial radius queries (`spatial.go`)

`float64` arithmetic is modelled over the reals.  The external r-tree
(`rtreego`) is modelled by its contract: `SearchIntersect` returns every
stored entry whose rectangle intersects the query rectangle (closed
overlap in both dimensions). -/

/-- `locExtent`: the tiny box put around an offer's coordinates. -/
noncomputable def locExtent : ℝ × ℝ := (1e-6, 1e-6)

/-- The essential path of `makeOfferLocation`: wrap coordinates into an
entry whose rectangle is a `locExtent` box centred on `(lon, lat)`
(rtreego points are `{lon, lat}`). -/
noncomputable def makeOfferLocation (id : String) (date : GoTime)
    (lat lon : ℝ) : OfferLocEntry :=
  ⟨id, date,
    ⟨lon - locExtent.1 / 2, lat - locExtent.2 / 2, locExtent.1, locExtent.2⟩⟩

/-- `makeGeoRect`: degree-sized query rectangle from a radius in metres,
using the earth-radius 6371000 m approximation. -/
noncomputable def makeGeoRect (lat lon radius : ℝ) : GeoRect :=
  let earth : ℝ := 6371000
  let dlat := radius / (Real.pi * earth) * 180
  let r := earth * Real.cos (Real.pi * lat / 180)
  let dlon := radius / (Real.pi * r) * 180
  ⟨lon - dlon, lat - dlat, 2 * dlon, 2 * dlat⟩

/-- Closed rectangle overlap in both dimensions (the r-tree's
intersection test). -/
def rectIntersects (a b : GeoRect) : Prop :=
  a.px ≤ b.px + b.lx ∧ b.px ≤ a.px + a.lx ∧
  a.py ≤ b.py + b.ly ∧ b.py ≤ a.py + a.ly

/-- `datedOffer`. -/
structure DatedOffer where
  Date : String
  Id : String

open Classical in
/-- `SpatialIndex.FindNearest`: all stored entries whose rectangle
intersects the query rectangle, as dated offers. -/
noncomputable def findNearest (s : SpatialIndexM) (lat lon maxDist : ℝ) :
    List DatedOffer :=
  (s.known.filter (fun e =>
    decide (rectIntersects (makeGeoRect lat lon maxDist) e.2.loc))).map
    (fun e => ⟨formatRFC3339 e.2.date, e.2.id⟩)

/-- C8: inserting an entry at geographic coordinates `(lat, lon)` (any
latitude in range) and querying `FindNearest(lat, lon, ε)` with any radius
`ε > 0` finds that entry — the query rectangle built from
`dlat = ε·180/(π·R)` and `dlon = ε·180/(π·R·cos(lat·π/180))` with
`R = 6371000` always intersects the entry's own box. -/
theorem claim_c8_find_nearest (s : SpatialIndexM) (id : String)
    (date : GoTime) (lat lon eps : ℝ) (hlat1 : -90 ≤ lat) (hlat2 : lat ≤ 90)
    (heps : 0 < eps) :
    ∃ d ∈ findNearest (spatialAdd s (makeOfferLocation id date lat lon))
      lat lon eps, d.Id = id := by
  classical
  have hpi := Real.pi_pos
  have hθ1 : -(Real.pi / 2) ≤ Real.pi * lat / 180 := by nlinarith
  have hθ2 : Real.pi * lat / 180 ≤ Real.pi / 2 := by nlinarith
  have hcos : 0 ≤ Real.cos (Real.pi * lat / 180) :=
    Real.cos_nonneg_of_mem_Icc ⟨hθ1, hθ2⟩
  have hdlat : 0 ≤ eps / (Real.pi * 6371000) * 180 := by positivity
  have hdlon : 0 ≤ eps / (Real.pi * (6371000 * Real.cos (Real.pi * lat / 180))) * 180 := by
    apply mul_nonneg _ (by norm_num)
    apply div_nonneg (le_of_lt heps)
    apply mul_nonneg (le_of_lt hpi)
    apply mul_nonneg (by norm_num) hcos
  have hint : rectIntersects (makeGeoRect lat lon eps)
      (makeOfferLocation id date lat lon).loc := by
    rw [makeGeoRect, makeOfferLocation, rectIntersects]
    simp only [locExtent]
    norm_num
    refine ⟨by nlinarith, by nlinarith, by nlinarith, by nlinarith⟩
  refine ⟨⟨formatRFC3339 date, id⟩, ?_, rfl⟩
  rw [findNearest]
  apply List.mem_map.mpr
  refine ⟨(id, makeOfferLocation id date lat lon), ?_, rfl⟩
  apply List.mem_filter.mpr
  constructor
  · show (id, makeOfferLocation id date lat lon) ∈
      alSet s.known (makeOfferLocation id date lat lon).id _
    rw [makeOfferLocation]
    exact List.mem_cons_self _ _
  · exact decide_eq_true hint

/-- Witness for C8: a single entry at Paris-like coordinates found with a
1 m radius. -/
theorem claim_c8_witness :
    ∃ d ∈ findNearest (spatialAdd ⟨[]⟩
      (makeOfferLocation "x" GoTime.zeroT 48 2)) 48 2 1, d.Id = "x" :=
  claim_c8_find_nearest ⟨[]⟩ "x" GoTime.zeroT 48 2 1 (by norm_num)
    (by norm_num) (by norm_num)

/-! ## Search query parser (`blevext`, `query.y` + lexer)

The lexer is embedded from the Go source.  The yacc-generated parser
(`query.y.go`) is not part of the repository sources; it is modelled from
the grammar file: productions `queryPart: ( queryPart ) | queryPart AND
queryPart | queryPart OR queryPart | PHRASE | STRING`, with the
declarations `%left tOR` then `%left tAND` (so AND has higher precedence
than OR and both are left-associative), realised as the standard
operator-precedence (shift/reduce) algorithm those declarations denote:
on an incoming operator, pending operators of greater-or-equal precedence
are reduced first.  Strings are `List Char`. -/

/-- Lexer/parser tokens (`yySymType.yys` with the `s` payload). -/
inductive Tok where
  | tAND : Tok
  | tOR : Tok
  | tLPARENS : Tok
  | tRPARENS : Tok
  | tSTRING (s : List Char) : Tok
  | tPHRASE (s : List Char) : Tok
deriving DecidableEq

/-- `Node`: the grammar always builds exactly two children for `and`/`or`
nodes, so the `Children` slice is modelled by two fields. -/
inductive QNode where
  | nAnd (a b : QNode) : QNode
  | nOr (a b : QNode) : QNode
  | nstr (s : List Char) : QNode
  | nphrase (s : List Char) : QNode
deriving DecidableEq

/-- Modelled from the spec: `unicode.IsSpace` on the Latin-1 range (wider
Unicode space runes are not needed for ASCII queries). -/
def goIsSpace (c : Char) : Bool :=
  c = ' ' || c = '\t' || c = '\n' || c = '\x0B' || c = '\x0C' || c = '\r' ||
  c = '\x85' || c = '\xA0'

/-- Characters ending a bare token (`unicode.IsSpace(r) || r == ')' || r == '('`). -/
def bareEnd (c : Char) : Bool :=
  goIsSpace c || c = '(' || c = ')'

/-- `Lex`, fuel-bounded: every iteration consumes at least one character,
so fuel `length + 1` always suffices (see `lexGo`). -/
def lexGoF : Nat → List Char → Option (List Tok)
  | 0, _ => none
  | _ + 1, [] => some []
  | fuel + 1, c :: cs =>
    if goIsSpace c then lexGoF fuel cs
    else if c = '(' then (lexGoF fuel cs).map fun ts => Tok.tLPARENS :: ts
    else if c = ')' then (lexGoF fuel cs).map fun ts => Tok.tRPARENS :: ts
    else if c = '"' then
      if cs.contains '"' then
        (lexGoF fuel ((cs.dropWhile fun d => d != '"').drop 1)).map
          fun ts => Tok.tPHRASE (cs.takeWhile fun d => d != '"') :: ts
      else none
    else
      (lexGoF fuel (cs.dropWhile fun d => !bareEnd d)).map fun ts =>
        (if c :: cs.takeWhile (fun d => !bareEnd d) = ['a', 'n', 'd'] then
          Tok.tAND
        else if c :: cs.takeWhile (fun d => !bareEnd d) = ['o', 'r'] then
          Tok.tOR
        else Tok.tSTRING (c :: cs.takeWhile fun d => !bareEnd d)) :: ts

/-- `Lex` on a whole input. -/
def lexGo (input : List Char) : Option (List Tok) :=
  lexGoF (input.length + 1) input

/-- Pending parser operators (the parse stack's operator part). -/
inductive POp where
  | pAnd : POp
  | pOr : POp
  | pLParen : POp
deriving DecidableEq

/-- Operator precedence from the `%left tOR` / `%left tAND` declaration
order: AND binds tighter than OR; `(` never compares. -/
def precOf : POp → Nat
  | POp.pAnd => 2
  | POp.pOr => 1
  | POp.pLParen => 0

/-- Reduce one pending operator against the output stack (the
`queryPart op queryPart` productions). -/
def applyOp : POp → List QNode → Option (List QNode)
  | POp.pAnd, b :: a :: out => some (QNode.nAnd a b :: out)
  | POp.pOr, b :: a :: out => some (QNode.nOr a b :: out)
  | _, _ => none

/-- Reduce pending operators of precedence ≥ `p` (left-associativity:
equal precedence also reduces). -/
def popGE (p : Nat) : List POp → List QNode → Option (List POp × List QNode)
  | [], out => some ([], out)
  | op :: ops, out =>
    if p ≤ precOf op then
      match applyOp op out with
      | some out2 => popGE p ops out2
      | none => none
    else some (op :: ops, out)

/-- Reduce pending operators down to the matching `(`. -/
def popUntilParen : List POp → List QNode → Option (List POp × List QNode)
  | [], _ => none
  | POp.pLParen :: ops, out => some (ops, out)
  | op :: ops, out =>
    match applyOp op out with
    | some out2 => popUntilParen ops out2
    | none => none

/-- Reduce all pending operators at end of input (an unmatched `(` is a
syntax error). -/
def popAll : List POp → List QNode → Option (List QNode)
  | [], out => some out
  | POp.pLParen :: _, _ => none
  | op :: ops, out =>
    match applyOp op out with
    | some out2 => popAll ops out2
    | none => none

/-- The parser loop: operator stack, output stack, and whether an operand
is expected next (rejecting the same inputs the LALR automaton rejects:
two adjacent operands, an operator without operands, unmatched
parentheses). -/
def parseToksAux : List Tok → List POp → List QNode → Bool → Option QNode
  | [], ops, out, expect =>
    if expect then none
    else
      match popAll ops out with
      | some [n] => some n
      | _ => none
  | Tok.tSTRING s :: ts, ops, out, expect =>
    if expect then parseToksAux ts ops (QNode.nstr s :: out) false else none
  | Tok.tPHRASE s :: ts, ops, out, expect =>
    if expect then parseToksAux ts ops (QNode.nphrase s :: out) false else none
  | Tok.tAND :: ts, ops, out, expect =>
    if expect then none
    else
      match popGE 2 ops out with
      | some (ops2, out2) => parseToksAux ts (POp.pAnd :: ops2) out2 true
      | none => none
  | Tok.tOR :: ts, ops, out, expect =>
    if expect then none
    else
      match popGE 1 ops out with
      | some (ops2, out2) => parseToksAux ts (POp.pOr :: ops2) out2 true
      | none => none
  | Tok.tLPARENS :: ts, ops, out, expect =>
    if expect then parseToksAux ts (POp.pLParen :: ops) out true else none
  | Tok.tRPARENS :: ts, ops, out, expect =>
    if expect then none
    else
      match popUntilParen ops out with
      | some (ops2, out2) => parseToksAux ts ops2 out2 false
      | none => none

/-- `yyParse` on a token list: `some none` for the empty production,
`some (some n)` for a parsed tree, `none` for a syntax error. -/
def yyParseToks : List Tok → Option (Option QNode)
  | [] => some none
  | t :: ts => (parseToksAux (t :: ts) [] [] true).map some

/-- `Parse`: lex then parse; `none` is an error, `some none` the nil tree
of an empty query. -/
def goParse (input : List Char) : Option (Option QNode) :=
  match lexGo input with
  | none => none
  | some ts => yyParseToks ts

/-- Token list of the tail of an and-chain: `AND s` for each `s`. -/
def andTail (rest : List (List Char)) : List Tok :=
  rest.foldr (fun s acc => Tok.tAND :: Tok.tSTRING s :: acc) []

/-- Token list of an and-chain `a and s1 and s2 ...`. -/
def andToks (a : List Char) (rest : List (List Char)) : List Tok :=
  Tok.tSTRING a :: andTail rest

/-- The left-associative tree of an and-chain. -/
def andTree (a : List Char) (rest : List (List Char)) : QNode :=
  rest.foldl (fun t s => QNode.nAnd t (QNode.nstr s)) (QNode.nstr a)

/-- Token list of the tail of an or-chain: `OR <and-chain>` for each
chain. -/
def orTail (cs : List (List Char × List (List Char))) : List Tok :=
  cs.foldr (fun p acc => Tok.tOR :: andToks p.1 p.2 ++ acc) []

/-- Token list of an or-chain of and-chains. -/
def orToks (a : List Char) (rest : List (List Char))
    (cs : List (List Char × List (List Char))) : List Tok :=
  andToks a rest ++ orTail cs

/-- The left-associative tree of an or-chain of and-chains. -/
def orTree (a : List Char) (rest : List (List Char))
    (cs : List (List Char × List (List Char))) : QNode :=
  cs.foldl (fun t p => QNode.nOr t (andTree p.1 p.2)) (andTree a rest)

/-- The operator stack does not start with a pending AND. -/
def notAndTop : List POp → Prop
  | POp.pAnd :: _ => False
  | _ => True

/-- The remaining input is empty or starts with OR. -/
def orStart : List Tok → Prop
  | [] => True
  | Tok.tOR :: _ => True
  | _ => False

theorem popGE_two {ops : List POp} (h : notAndTop ops) (out : List QNode) :
    popGE 2 ops out = some (ops, out) := by
  cases ops with
  | nil => rfl
  | cons op ops =>
    cases op with
    | pAnd => exact absurd h (by simp [notAndTop])
    | pOr => simp [popGE, precOf]
    | pLParen => simp [popGE, precOf]

theorem orStart_orTail (cs : List (List Char × List (List Char))) :
    orStart (orTail cs) := by
  cases cs with
  | nil => trivial
  | cons p cs => trivial

theorem andTail_pending (rest : List (List Char)) (s : List Char) (t : QNode)
    (ops : List POp) (out : List QNode) (suffix : List Tok)
    (h1 : notAndTop ops) (h2 : orStart suffix) :
    parseToksAux (andTail rest ++ suffix) (POp.pAnd :: ops)
      (QNode.nstr s :: t :: out) false
    = parseToksAux (andTail rest ++ suffix) ops
      (QNode.nAnd t (QNode.nstr s) :: out) false := by
  cases rest with
  | nil =>
    cases suffix with
    | nil => simp [andTail, parseToksAux, popAll, applyOp]
    | cons tok ss =>
      cases tok with
      | tOR => simp [andTail, parseToksAux, popGE, precOf, applyOp]
      | tAND => exact absurd h2 (by simp [orStart])
      | tLPARENS => exact absurd h2 (by simp [orStart])
      | tRPARENS => exact absurd h2 (by simp [orStart])
      | tSTRING s2 => exact absurd h2 (by simp [orStart])
      | tPHRASE s2 => exact absurd h2 (by simp [orStart])
  | cons s2 rest2 =>
    rw [show andTail (s2 :: rest2) ++ suffix
      = Tok.tAND :: Tok.tSTRING s2 :: (andTail rest2 ++ suffix) from rfl]
    simp [parseToksAux, popGE, precOf, applyOp, popGE_two h1]

theorem andTail_run (rest : List (List Char)) : ∀ (t : QNode)
    (ops : List POp) (out : List QNode) (suffix : List Tok),
    notAndTop ops → orStart suffix →
    parseToksAux (andTail rest ++ suffix) ops (t :: out) false
    = parseToksAux suffix ops
      (rest.foldl (fun acc s => QNode.nAnd acc (QNode.nstr s)) t :: out)
      false := by
  induction rest with
  | nil => intro t ops out suffix h1 h2; simp [andTail]
  | cons s rest ih =>
    intro t ops out suffix h1 h2
    rw [show andTail (s :: rest) ++ suffix
      = Tok.tAND :: Tok.tSTRING s :: (andTail rest ++ suffix) from rfl]
    have e1 : parseToksAux
        (Tok.tAND :: Tok.tSTRING s :: (andTail rest ++ suffix)) ops
        (t :: out) false
        = parseToksAux (andTail rest ++ suffix) (POp.pAnd :: ops)
          (QNode.nstr s :: t :: out) false := by
      simp [parseToksAux, popGE_two h1]
    rw [e1, andTail_pending rest s t ops out suffix h1 h2,
      ih (QNode.nAnd t (QNode.nstr s)) ops out suffix h1 h2]
    rfl

theorem andChain_run (a : List Char) (rest : List (List Char))
    (ops : List POp) (out : List QNode) (suffix : List Tok)
    (h1 : notAndTop ops) (h2 : orStart suffix) :
    parseToksAux (andToks a rest ++ suffix) ops out true
    = parseToksAux suffix ops (andTree a rest :: out) false := by
  rw [show andToks a rest ++ suffix
    = Tok.tSTRING a :: (andTail rest ++ suffix) from rfl]
  have e1 : parseToksAux (Tok.tSTRING a :: (andTail rest ++ suffix)) ops out
      true
      = parseToksAux (andTail rest ++ suffix) ops (QNode.nstr a :: out)
        false := by
    simp [parseToksAux]
  rw [e1, andTail_run rest (QNode.nstr a) ops out suffix h1 h2]
  rfl

theorem orTail_pending (cs : List (List Char × List (List Char)))
    (a b : QNode) (out : List QNode) :
    parseToksAux (orTail cs) [POp.pOr] (a :: b :: out) false
    = parseToksAux (orTail cs) [] (QNode.nOr b a :: out) false := by
  cases cs with
  | nil => simp [orTail, parseToksAux, popAll, applyOp]
  | cons p cs =>
    rw [show orTail (p :: cs)
      = Tok.tOR :: (andToks p.1 p.2 ++ orTail cs) from rfl]
    simp [parseToksAux, popGE, precOf, applyOp]

theorem orTail_run (cs : List (List Char × List (List Char))) :
    ∀ (t : QNode) (out : List QNode),
    parseToksAux (orTail cs) [] (t :: out) false
    = parseToksAux [] []
      (cs.foldl (fun acc p => QNode.nOr acc (andTree p.1 p.2)) t :: out)
      false := by
  induction cs with
  | nil => intro t out; simp [orTail]
  | cons p cs ih =>
    intro t out
    rw [show orTail (p :: cs)
      = Tok.tOR :: (andToks p.1 p.2 ++ orTail cs) from rfl]
    have e1 : parseToksAux (Tok.tOR :: (andToks p.1 p.2 ++ orTail cs)) []
        (t :: out) false
        = parseToksAux (andToks p.1 p.2 ++ orTail cs) [POp.pOr] (t :: out)
          true := by
      simp [parseToksAux, popGE]
    rw [e1, andChain_run p.1 p.2 [POp.pOr] (t :: out) (orTail cs) trivial
      (orStart_orTail cs), orTail_pending cs (andTree p.1 p.2) t out,
      ih (QNode.nOr t (andTree p.1 p.2)) out]
    rfl

/-- C7: the parser gives AND higher precedence than OR and makes both
left-associative: every or-chain of and-chains parses to the left-folded
tree of left-folded and-trees; in particular `a or b and c` parses as
`Or(a, And(b, c))` and `a and b and c` as `And(And(a, b), c)` from the
raw input strings through the lexer. -/
theorem claim_c7_parser_precedence :
    (∀ (a : List Char) (rest : List (List Char))
      (cs : List (List Char × List (List Char))),
      yyParseToks (orToks a rest cs) = some (some (orTree a rest cs))) ∧
    goParse ['a', ' ', 'o', 'r', ' ', 'b', ' ', 'a', 'n', 'd', ' ', 'c']
      = some (some (QNode.nOr (QNode.nstr ['a'])
          (QNode.nAnd (QNode.nstr ['b']) (QNode.nstr ['c'])))) ∧
    goParse ['a', ' ', 'a', 'n', 'd', ' ', 'b', ' ', 'a', 'n', 'd', ' ', 'c']
      = some (some (QNode.nAnd
          (QNode.nAnd (QNode.nstr ['a']) (QNode.nstr ['b']))
          (QNode.nstr ['c']))) := by
  refine ⟨?_, by decide, by decide⟩
  intro a rest cs
  rw [show orToks a rest cs
    = Tok.tSTRING a :: (andTail rest ++ orTail cs) from rfl]
  show (parseToksAux (Tok.tSTRING a :: (andTail rest ++ orTail cs)) [] []
    true).map some = _
  rw [show (Tok.tSTRING a :: (andTail rest ++ orTail cs))
    = andToks a rest ++ orTail cs from rfl]
  rw [andChain_run a rest [] [] (orTail cs) trivial (orStart_orTail cs),
    orTail_run cs (andTree a rest) []]
  rfl

end Apec
